import Mathlib

/-!
Verification of the hid-tools report-descriptor engine specification.

The development shallowly embeds the relevant parts of the repository:
the hidraw recording output format (hidtools/hidraw.py), the gamepad
report construction (hidtools/device/base_gamepad.py), the usage-page
dictionaries (hidtools/hut.py), and — where the engine module itself is
not part of the source tree — models of the descriptor item reader,
annotated-dump formatter, textual-input parsing and field bit codec
built from the specification text, together with the test suite's
extraction helpers (tests/test_cli_decode.py).
-/

namespace HidTools

/-! ## Characters and digit rendering

Python renders numbers with lowercase digits; these helpers model the
formatting mini-language fragments the repository uses: the value of a
digit character, little-endian digit extraction with explicit fuel (so
everything reduces in the kernel), and zero padding as in 06d / 02x. -/

/-- The sixteen lowercase digit characters in order. -/
def hexCharTable : List Char := ("0123456789abcdef").data

/-- Lowercase digit character for a value, as Python produces for bases up
to 16.  Values 16 and above never occur; they map to a placeholder. -/
def digChar (n : Nat) : Char := hexCharTable.getD n '*'

/-- Numeric value of a digit character (inverse of digChar on digits). -/
def digVal (c : Char) : Nat :=
  if c = '0' then 0 else if c = '1' then 1 else if c = '2' then 2
  else if c = '3' then 3 else if c = '4' then 4 else if c = '5' then 5
  else if c = '6' then 6 else if c = '7' then 7 else if c = '8' then 8
  else if c = '9' then 9 else if c = 'a' then 10 else if c = 'b' then 11
  else if c = 'c' then 12 else if c = 'd' then 13 else if c = 'e' then 14
  else if c = 'f' then 15 else 0

/-- Little-endian digits of a number in base b, with explicit fuel. -/
def digitsLE (b : Nat) : Nat → Nat → List Char
  | 0, _ => []
  | fuel + 1, n => if n = 0 then [] else digChar (n % b) :: digitsLE b fuel (n / b)

/-- The base-b rendering of a number, most significant digit first, as
Python str/hex produce (a lone zero renders as one digit). -/
def natChars (b n : Nat) : List Char :=
  if n = 0 then ['0'] else (digitsLE b n n).reverse

/-- Zero padding on the left to a minimal width, as in Python 0Nd / 0Nx. -/
def padZeros (w : Nat) (s : List Char) : List Char :=
  List.replicate (w - s.length) '0' ++ s

/-- Model of the Python format fragment 06d applied to a natural. -/
def pyFmt06d (n : Nat) : List Char := padZeros 6 (natChars 10 n)

/-- Model of the Python format fragment 02x applied to a natural. -/
def pyFmt02x (n : Nat) : List Char := padZeros 2 (natChars 16 n)

/-- Big-endian valuation of a digit string in base b, used by the
specification-side predicates (independent reading direction from the
renderers above, so the round-trip lemmas have content). -/
def valBE (b : Nat) (s : List Char) : Nat := s.foldl (fun a c => b * a + digVal c) 0

theorem digVal_digChar {n : Nat} (h : n < 16) : digVal (digChar n) = n := by
  interval_cases n <;> decide

theorem digChar_not_mem {c : Char} (hc : c ∉ hexCharTable) (hc2 : c ≠ '*') (n : Nat) :
    digChar n ≠ c := by
  by_cases h : n < 16
  · intro he
    apply hc
    rw [← he]
    unfold digChar
    interval_cases n <;> decide
  · unfold digChar
    rw [List.getD_eq_default]
    · exact fun he => hc2 he.symm
    · simp [hexCharTable]; omega

theorem digChar_ne_comma (n : Nat) : digChar n ≠ ',' :=
  digChar_not_mem (by decide) (by decide) n

theorem digChar_ne_v (n : Nat) : digChar n ≠ 'v' :=
  digChar_not_mem (by decide) (by decide) n

theorem digChar_ne_space (n : Nat) : digChar n ≠ ' ' :=
  digChar_not_mem (by decide) (by decide) n

theorem digChar_ne_paren (n : Nat) : digChar n ≠ '(' :=
  digChar_not_mem (by decide) (by decide) n

theorem digChar_isDigit {n : Nat} (h : n < 10) : (digChar n).isDigit := by
  interval_cases n <;> decide

theorem digChar_isHex {n : Nat} (h : n < 16) :
    digChar n ∈ ("0123456789abcdef").data := by
  interval_cases n <;> decide

theorem valBE_append (b : Nat) (xs ys : List Char) :
    valBE b (xs ++ ys) = ys.foldl (fun a c => b * a + digVal c) (valBE b xs) := by
  simp [valBE, List.foldl_append]

/-- Digits produced by digitsLE are genuine digits of the base (for bases
up to 16). -/
theorem digitsLE_mem {b : Nat} (hb : 2 ≤ b) (hb16 : b ≤ 16) :
    ∀ (fuel n : Nat), ∀ c ∈ digitsLE b fuel n, ∃ d < b, c = digChar d := by
  intro fuel
  induction fuel with
  | zero => intro n c hc; simp [digitsLE] at hc
  | succ fuel ih =>
    intro n c hc
    by_cases hn : n = 0
    · simp [digitsLE, hn] at hc
    · simp only [digitsLE, if_neg hn, List.mem_cons] at hc
      rcases hc with rfl | hc
      · exact ⟨n % b, Nat.mod_lt _ (by omega), rfl⟩
      · exact ih _ _ hc

/-- Reading the digits back (most significant first) recovers the number. -/
theorem valBE_digitsLE {b : Nat} (hb : 2 ≤ b) (hb16 : b ≤ 16) :
    ∀ (fuel n : Nat), n ≤ fuel → valBE b ((digitsLE b fuel n).reverse) = n := by
  intro fuel
  induction fuel with
  | zero => intro n hn; interval_cases n; simp [digitsLE, valBE]
  | succ fuel ih =>
    intro n hn
    by_cases hz : n = 0
    · simp [digitsLE, hz, valBE]
    · have hdiv : n / b ≤ fuel := by
        have h1 : n / b < n := Nat.div_lt_self (by omega) (by omega)
        omega
      simp only [digitsLE, if_neg hz, List.reverse_cons]
      rw [valBE_append, List.foldl_cons, List.foldl_nil]
      rw [show (valBE b (digitsLE b fuel (n / b)).reverse) = n / b from ih _ hdiv]
      rw [digVal_digChar (Nat.lt_of_lt_of_le (Nat.mod_lt _ (by omega)) hb16)]
      exact Nat.div_add_mod n b

/-- The number of digits is bounded by the exponent that bounds the value. -/
theorem digitsLE_length {b : Nat} (hb : 2 ≤ b) :
    ∀ (fuel n k : Nat), n < b ^ k → (digitsLE b fuel n).length ≤ k := by
  intro fuel
  induction fuel with
  | zero => intro n k _; simp [digitsLE]
  | succ fuel ih =>
    intro n k hk
    by_cases hz : n = 0
    · simp [digitsLE, hz]
    · cases k with
      | zero => simp at hk; omega
      | succ k =>
        have : n / b < b ^ k := by
          rw [Nat.div_lt_iff_lt_mul (by omega)]
          calc n < b ^ (k + 1) := hk
          _ = b ^ k * b := by ring
        simp only [digitsLE, if_neg hz, List.length_cons]
        have := ih (n / b) k this
        omega

theorem natChars_length_le {b n k : Nat} (hb : 2 ≤ b) (hk : 1 ≤ k)
    (h : n < b ^ k) : (natChars b n).length ≤ k := by
  unfold natChars
  split_ifs with hz
  · simpa using hk
  · rw [List.length_reverse]
    exact digitsLE_length hb _ _ _ h

theorem valBE_natChars {b : Nat} (hb : 2 ≤ b) (hb16 : b ≤ 16) (n : Nat) :
    valBE b (natChars b n) = n := by
  unfold natChars
  split_ifs with hz
  · simp [hz, valBE, digVal]
  · exact valBE_digitsLE hb hb16 n n le_rfl

theorem natChars_mem {b : Nat} (hb : 2 ≤ b) (hb16 : b ≤ 16) (n : Nat) :
    ∀ c ∈ natChars b n, ∃ d < b, c = digChar d := by
  intro c hc
  unfold natChars at hc
  split_ifs at hc with hz
  · simp at hc; exact ⟨0, by omega, by rw [hc]; decide⟩
  · rw [List.mem_reverse] at hc
    exact digitsLE_mem hb hb16 n n c hc

theorem valBE_padZeros (b w : Nat) (s : List Char) :
    valBE b (padZeros w s) = valBE b s := by
  unfold padZeros
  rw [valBE_append]
  have : valBE b (List.replicate (w - s.length) '0') = 0 := by
    induction (w - s.length) with
    | zero => simp [valBE]
    | succ k ih =>
      rw [List.replicate_succ]
      simp only [valBE, List.foldl_cons] at ih ⊢
      simpa [digVal] using ih
  rw [this]
  rfl

theorem padZeros_length {w : Nat} {s : List Char} (h : s.length ≤ w) :
    (padZeros w s).length = w := by
  simp [padZeros]; omega

theorem padZeros_mem (w : Nat) (s : List Char) :
    ∀ c ∈ padZeros w s, c = '0' ∨ c ∈ s := by
  intro c hc
  simp only [padZeros, List.mem_append] at hc
  rcases hc with hc | hc
  · exact Or.inl (List.eq_of_mem_replicate hc)
  · exact Or.inr hc

/-! ## The report trace line

Embedding of the E-line printed by HidrawDevice._dump_event in
hidtools/hidraw.py: the timestamp uses the Python 06d format, the data
bytes use 02x and are joined by single spaces. -/

/-- Join character lists with a single space between consecutive entries,
the effect of joining with a one-space separator. -/
def joinSpace : List (List Char) → List Char
  | [] => []
  | [x] => x
  | x :: y :: xs => x ++ ' ' :: joinSpace (y :: xs)

/-- The event trace line of HidrawDevice._dump_event: timestamp seconds and
microseconds in 06d format separated by a dot, the byte count in decimal,
and the event bytes in 02x format joined by single spaces. -/
def dumpEventLine (sec usec : Nat) (bs : List Nat) : List Char :=
  ("E: ").data ++ pyFmt06d sec ++ '.' :: pyFmt06d usec ++ ' ' ::
    natChars 10 bs.length ++ ' ' :: joinSpace (bs.map pyFmt02x)

/-- Specification-side reading: a string of exactly six decimal digits
whose decimal value is n. -/
def IsSixDecimalDigits (s : List Char) (n : Nat) : Prop :=
  s.length = 6 ∧ (∀ c ∈ s, c.isDigit) ∧ valBE 10 s = n

/-- Specification-side reading: a two-character lowercase hexadecimal pair
whose value is n. -/
def IsLowerHexPair (s : List Char) (n : Nat) : Prop :=
  s.length = 2 ∧ (∀ c ∈ s, c ∈ ("0123456789abcdef").data) ∧ valBE 16 s = n

theorem pyFmt06d_spec {n : Nat} (h : n < 1000000) :
    IsSixDecimalDigits (pyFmt06d n) n := by
  refine ⟨?_, ?_, ?_⟩
  · exact padZeros_length (natChars_length_le (by omega) (by omega)
      (by norm_num; omega))
  · intro c hc
    rcases padZeros_mem _ _ c hc with rfl | hc
    · decide
    · rcases natChars_mem (by omega) (by omega) n c hc with ⟨d, hd, rfl⟩
      exact digChar_isDigit hd
  · rw [pyFmt06d, valBE_padZeros, valBE_natChars (by omega) (by omega)]

theorem pyFmt02x_spec {n : Nat} (h : n < 256) :
    IsLowerHexPair (pyFmt02x n) n := by
  refine ⟨?_, ?_, ?_⟩
  · exact padZeros_length (natChars_length_le (by omega) (by omega)
      (by norm_num; omega))
  · intro c hc
    rcases padZeros_mem _ _ c hc with rfl | hc
    · decide
    · rcases natChars_mem (by omega) (by omega) n c hc with ⟨d, hd, rfl⟩
      exact digChar_isHex hd
  · rw [pyFmt02x, valBE_padZeros, valBE_natChars (by omega) (by omega)]

/-- C2: for every recorded event with timestamp (sec, usec) and byte
sequence bs, the emitted report trace line is exactly "E: " followed by
sec zero-padded to 6 decimal digits, a dot, usec zero-padded to 6 decimal
digits, a space, the byte count in decimal, and each byte as a two-digit
lowercase hex pair separated by single spaces. -/
theorem C2_report_trace_line (sec usec : Nat) (bs : List Nat)
    (hsec : sec < 1000000) (husec : usec < 1000000)
    (hbs : ∀ b ∈ bs, b < 256) :
    dumpEventLine sec usec bs =
      ("E: ").data ++ pyFmt06d sec ++ '.' :: pyFmt06d usec ++ ' ' ::
        natChars 10 bs.length ++ ' ' :: joinSpace (bs.map pyFmt02x) ∧
    IsSixDecimalDigits (pyFmt06d sec) sec ∧
    IsSixDecimalDigits (pyFmt06d usec) usec ∧
    (∀ c ∈ natChars 10 bs.length, c.isDigit) ∧
    valBE 10 (natChars 10 bs.length) = bs.length ∧
    ∀ b ∈ bs, IsLowerHexPair (pyFmt02x b) b := by
  refine ⟨rfl, pyFmt06d_spec hsec, pyFmt06d_spec husec, ?_, ?_, ?_⟩
  · intro c hc
    rcases natChars_mem (by omega) (by omega) bs.length c hc with ⟨d, hd, rfl⟩
    exact digChar_isDigit hd
  · exact valBE_natChars (by omega) (by omega) _
  · exact fun b hb => pyFmt02x_spec (hbs b hb)

theorem C2_report_trace_line_witness :
    (1 < 1000000 ∧ 2 < 1000000 ∧ ∀ b ∈ [171, 18], b < 256) ∧
    IsSixDecimalDigits (pyFmt06d 1) 1 ∧ IsLowerHexPair (pyFmt02x 171) 171 := by
  refine ⟨by decide, ?_, ?_⟩
  · exact (C2_report_trace_line 1 2 [171, 18] (by decide) (by decide)
      (by decide)).2.1
  · exact (C2_report_trace_line 1 2 [171, 18] (by decide) (by decide)
      (by decide)).2.2.2.2.2 171 (by decide)

/-! ## The report field bit codec

Modelled from the spec: the engine module holding the report codec
(hidtools/hid.py, HidField) is not part of the source tree.  Encoding
writes a field value as a report_size-bit two's-complement integer when
logical_minimum is negative (unsigned otherwise), little-endian
bit-packed at bit_offset with no byte alignment assumed; decoding reads
report_size bits there and sign-extends when logical_minimum is
negative. -/

/-- The bit geometry and sign convention of one parsed report field. -/
structure HidFieldGeom where
  bit_offset : Nat
  report_size : Nat
  logical_minimum : Int
  logical_maximum : Int

/-- Bit i of a little-endian bit-packed byte buffer. -/
def bufBit (buf : List Nat) (i : Nat) : Nat :=
  buf.getD (i / 8) 0 / 2 ^ (i % 8) % 2

/-- A byte value with the bit at position p replaced by v (v below 2). -/
def setBitByte (byte p v : Nat) : Nat :=
  byte % 2 ^ p + v * 2 ^ p + byte / 2 ^ (p + 1) * 2 ^ (p + 1)

/-- The buffer with bit i replaced by v. -/
def setBufBit (buf : List Nat) (i v : Nat) : List Nat :=
  buf.set (i / 8) (setBitByte (buf.getD (i / 8) 0) (i % 8) v)

/-- Write the low n bits of v, little-endian, bit-packed at offset off;
cross-byte fields are supported, no byte alignment is assumed. -/
def writeBits : List Nat → Nat → Nat → Nat → List Nat
  | buf, _, 0, _ => buf
  | buf, off, n + 1, v => writeBits (setBufBit buf off (v % 2)) (off + 1) n (v / 2)

/-- Read n bits at offset off, little-endian. -/
def readBits : List Nat → Nat → Nat → Nat
  | _, _, 0 => 0
  | buf, off, n + 1 => bufBit buf off + 2 * readBits buf (off + 1) n

theorem setBufBit_length (buf : List Nat) (i v : Nat) :
    (setBufBit buf i v).length = buf.length := by
  simp [setBufBit]

theorem writeBits_length : ∀ (n : Nat) (buf : List Nat) (off v : Nat),
    (writeBits buf off n v).length = buf.length
  | 0, _, _, _ => rfl
  | n + 1, buf, off, v => by
    rw [writeBits, writeBits_length n, setBufBit_length]

theorem setBitByte_shape (byte p v : Nat) :
    setBitByte byte p v = byte % 2 ^ p + (v + 2 * (byte / 2 ^ (p + 1))) * 2 ^ p := by
  unfold setBitByte; ring

theorem setBitByte_bit_same (byte p v : Nat) (hv : v < 2) :
    setBitByte byte p v / 2 ^ p % 2 = v := by
  rw [setBitByte_shape, Nat.add_mul_div_right _ _ (Nat.pos_pow_of_pos p (by omega)),
    Nat.div_eq_of_lt (Nat.mod_lt _ (Nat.pos_pow_of_pos p (by omega)))]
  have h8 : (v + 2 * (byte / 2 ^ (p + 1))) % 2 = v % 2 := by
    omega
  omega

theorem setBitByte_bit_lo (byte p v q : Nat) (hq : q < p) :
    setBitByte byte p v / 2 ^ q % 2 = byte / 2 ^ q % 2 := by
  have hmod : setBitByte byte p v % 2 ^ p = byte % 2 ^ p := by
    rw [setBitByte_shape, Nat.add_mul_mod_self_right]
    exact Nat.mod_mod_of_dvd byte dvd_rfl
  have hdvd : (2 : Nat) ^ (q + 1) ∣ 2 ^ p := pow_dvd_pow 2 (by omega)
  have key : ∀ m : Nat, m / 2 ^ q % 2 = m % 2 ^ (q + 1) / 2 ^ q := by
    intro m
    rw [Nat.div_mod_eq_mod_mul_div, pow_succ]
  rw [key, key byte, ← Nat.mod_mod_of_dvd _ hdvd, ← Nat.mod_mod_of_dvd byte hdvd,
    hmod]

theorem setBitByte_div_hi (byte p v : Nat) (hv : v < 2) :
    setBitByte byte p v / 2 ^ (p + 1) = byte / 2 ^ (p + 1) := by
  have hlow : byte % 2 ^ p + v * 2 ^ p < 2 ^ (p + 1) := by
    have h1 : byte % 2 ^ p < 2 ^ p := Nat.mod_lt _ (Nat.pos_pow_of_pos p (by omega))
    have h2 : v * 2 ^ p ≤ 2 ^ p := by
      calc v * 2 ^ p ≤ 1 * 2 ^ p := Nat.mul_le_mul_right _ (by omega)
      _ = 2 ^ p := by ring
    rw [pow_succ]
    omega
  unfold setBitByte
  rw [Nat.add_mul_div_right _ _ (Nat.pos_pow_of_pos (p + 1) (by omega)),
    Nat.div_eq_of_lt hlow]
  omega

theorem setBitByte_bit_hi (byte p v q : Nat) (hv : v < 2) (hq : p < q) :
    setBitByte byte p v / 2 ^ q % 2 = byte / 2 ^ q % 2 := by
  have key : ∀ m : Nat, m / 2 ^ q = m / 2 ^ (p + 1) / 2 ^ (q - (p + 1)) := by
    intro m
    rw [Nat.div_div_eq_div_mul, ← pow_add]
    congr 2
    omega
  rw [key, key byte, setBitByte_div_hi byte p v hv]

theorem getD_set_self (l : List Nat) (j x : Nat) (hj : j < l.length) :
    (l.set j x).getD j 0 = x := by
  rw [List.getD_eq_getElem?_getD, List.getElem?_set_eq_of_lt _ hj]
  rfl

theorem getD_set_other (l : List Nat) (i j x : Nat) (hij : i ≠ j) :
    (l.set j x).getD i 0 = l.getD i 0 := by
  rw [List.getD_eq_getElem?_getD, List.getElem?_set_ne (fun h => hij h.symm),
    ← List.getD_eq_getElem?_getD]

theorem getD_set_same_byte (l : List Nat) (j x : Nat) :
    (l.set j x).getD j 0 = x ∨
      ((l.set j x).getD j 0 = l.getD j 0 ∧ l.getD j 0 = 0) := by
  rcases Nat.lt_or_ge j l.length with h | h
  · exact Or.inl (getD_set_self l j x h)
  · right
    have h1 : l.set j x = l := List.set_eq_of_length_le h
    have h2 : l.getD j 0 = 0 := by
      rw [List.getD_eq_getElem?_getD, List.getElem?_eq_none (by omega)]
      rfl
    rw [h1]
    exact ⟨rfl, h2⟩

theorem bufBit_setBufBit_same (buf : List Nat) (i v : Nat)
    (hi : i < 8 * buf.length) (hv : v < 2) :
    bufBit (setBufBit buf i v) i = v := by
  have hidx : i / 8 < buf.length := by omega
  unfold bufBit setBufBit
  rw [getD_set_self _ _ _ hidx]
  exact setBitByte_bit_same _ _ _ hv

theorem bufBit_setBufBit_other (buf : List Nat) (i v j : Nat)
    (hv : v < 2) (hij : j ≠ i) :
    bufBit (setBufBit buf i v) j = bufBit buf j := by
  unfold bufBit setBufBit
  by_cases hbyte : j / 8 = i / 8
  · have hpos : j % 8 ≠ i % 8 := by omega
    rw [hbyte]
    rcases getD_set_same_byte buf (i / 8) (setBitByte (buf.getD (i / 8) 0) (i % 8) v)
      with hset | ⟨hset, hzero⟩
    · rw [hset]
      rcases Nat.lt_or_ge (j % 8) (i % 8) with h | h
      · exact setBitByte_bit_lo _ _ _ _ h
      · exact setBitByte_bit_hi _ _ _ _ hv (by omega)
    · rw [hset]
  · rw [getD_set_other _ _ _ _ hbyte]

theorem bufBit_writeBits_lt : ∀ (n : Nat) (buf : List Nat) (off v i : Nat),
    i < off → bufBit (writeBits buf off n v) i = bufBit buf i
  | 0, _, _, _, _, _ => rfl
  | n + 1, buf, off, v, i, hi => by
    rw [writeBits, bufBit_writeBits_lt n _ _ _ _ (by omega),
      bufBit_setBufBit_other _ _ _ _ (Nat.mod_lt _ (by omega)) (by omega)]

theorem mod_two_pow_succ (v n : Nat) : v % 2 ^ (n + 1) = v % 2 + 2 * (v / 2 % 2 ^ n) := by
  have h2 := Nat.div_add_mod v 2
  have h3 := Nat.div_add_mod (v / 2) (2 ^ n)
  have hm : 0 < 2 ^ n := Nat.pos_pow_of_pos n (by omega)
  have key : v = (v % 2 + 2 * (v / 2 % 2 ^ n)) + 2 ^ (n + 1) * (v / 2 / 2 ^ n) := by
    calc v = 2 * (v / 2) + v % 2 := by omega
    _ = 2 * (2 ^ n * (v / 2 / 2 ^ n) + v / 2 % 2 ^ n) + v % 2 := by rw [h3]
    _ = (v % 2 + 2 * (v / 2 % 2 ^ n)) + 2 ^ (n + 1) * (v / 2 / 2 ^ n) := by ring
  have hlt : v % 2 + 2 * (v / 2 % 2 ^ n) < 2 ^ (n + 1) := by
    have ha := Nat.mod_lt (v / 2) hm
    have hb : v % 2 < 2 := Nat.mod_lt v (by omega)
    rw [pow_succ]
    omega
  calc v % 2 ^ (n + 1)
      = ((v % 2 + 2 * (v / 2 % 2 ^ n)) + 2 ^ (n + 1) * (v / 2 / 2 ^ n)) % 2 ^ (n + 1) := by
        rw [← key]
    _ = (v % 2 + 2 * (v / 2 % 2 ^ n)) % 2 ^ (n + 1) := by
        rw [Nat.add_mul_mod_self_left]
    _ = v % 2 + 2 * (v / 2 % 2 ^ n) := Nat.mod_eq_of_lt hlt

/-- Round trip of the raw bit packing: reading back the bits just written
recovers the value modulo 2 ^ n. -/
theorem readBits_writeBits : ∀ (n : Nat) (buf : List Nat) (off v : Nat),
    off + n ≤ 8 * buf.length →
    readBits (writeBits buf off n v) off n = v % 2 ^ n
  | 0, _, _, _, _ => by simp [readBits, Nat.mod_one]
  | n + 1, buf, off, v, h => by
    have hlen : (setBufBit buf off (v % 2)).length = buf.length :=
      setBufBit_length _ _ _
    rw [writeBits, readBits]
    rw [readBits_writeBits n _ (off + 1) (v / 2) (by omega)]
    rw [bufBit_writeBits_lt n _ _ _ _ (by omega)]
    rw [bufBit_setBufBit_same _ _ _ (by omega) (Nat.mod_lt _ (by omega))]
    exact (mod_two_pow_succ v n).symm

/-- The report_size-bit two's-complement encoding of an integer value. -/
def twosComplement (s : Nat) (v : Int) : Nat := (v % ((2 : Int) ^ s)).toNat

/-- Sign extension of a report_size-bit raw value. -/
def signExtend (s : Nat) (raw : Nat) : Int :=
  if 2 ^ (s - 1) ≤ raw then (raw : Int) - 2 ^ s else (raw : Int)

/-- Modelled from the spec: encode one field element into the report
buffer — two's complement if logical_minimum is negative, else unsigned,
bit-packed little-endian at the field's bit_offset. -/
def encodeField (buf : List Nat) (f : HidFieldGeom) (v : Int) : List Nat :=
  writeBits buf f.bit_offset f.report_size
    (if f.logical_minimum < 0 then twosComplement f.report_size v
     else v.toNat % 2 ^ f.report_size)

/-- Modelled from the spec: decode one field element from the report
buffer — read report_size bits at bit_offset, sign-extend when
logical_minimum is negative. -/
def decodeField (buf : List Nat) (f : HidFieldGeom) : Int :=
  let raw := readBits buf f.bit_offset f.report_size
  if f.logical_minimum < 0 then signExtend f.report_size raw else (raw : Int)

/-- C3: for every field whose logical_minimum is negative and every value
in the logical range, decoding the bytes produced by encoding the value
into that field returns the value (the field's range fitting into its
report_size-bit two's-complement representation, and the field lying
within the report buffer). -/
theorem C3_sign_round_trip (buf : List Nat) (f : HidFieldGeom) (v : Int)
    (hsz : 0 < f.report_size)
    (hneg : f.logical_minimum < 0)
    (hlo : f.logical_minimum ≤ v) (hhi : v ≤ f.logical_maximum)
    (hmin : -(2 ^ (f.report_size - 1) : Int) ≤ f.logical_minimum)
    (hmax : f.logical_maximum < (2 ^ (f.report_size - 1) : Int))
    (hfit : f.bit_offset + f.report_size ≤ 8 * buf.length) :
    decodeField (encodeField buf f v) f = v := by
  obtain ⟨s, hs⟩ : ∃ s, f.report_size = s + 1 := ⟨f.report_size - 1, by omega⟩
  have hcast : ((2 ^ f.report_size : Nat) : Int) = (2 : Int) ^ f.report_size := by
    push_cast; ring
  have hcast2 : ((2 ^ (f.report_size - 1) : Nat) : Int) =
      (2 : Int) ^ (f.report_size - 1) := by
    push_cast; ring
  have hhalf : ((2 : Int) ^ (f.report_size - 1)) = 2 ^ s := by rw [hs]; simp
  have hfull : ((2 : Int) ^ f.report_size) = 2 * 2 ^ s := by rw [hs]; ring
  have hposs : (0 : Int) < 2 ^ s := by positivity
  have hv1 : -(2 ^ s) ≤ v := by rw [hhalf] at hmin; omega
  have hv2 : v < 2 ^ s := by rw [hhalf] at hmax; omega
  set t := twosComplement f.report_size v with ht
  have hposfull : (0 : Int) < (2 : Int) ^ f.report_size := by positivity
  have htnn : (0 : Int) ≤ v % ((2 : Int) ^ f.report_size) :=
    Int.emod_nonneg v (by positivity)
  have htlt' : v % ((2 : Int) ^ f.report_size) < (2 : Int) ^ f.report_size :=
    Int.emod_lt_of_pos v hposfull
  have heq : (v + (2 : Int) ^ f.report_size) % ((2 : Int) ^ f.report_size) =
      v % ((2 : Int) ^ f.report_size) := by
    have h := Int.add_mul_emod_self_left (a := v) (b := (2 : Int) ^ f.report_size)
      (c := 1)
    simpa using h
  have htInt : (t : Int) = if 0 ≤ v then v else v + 2 ^ f.report_size := by
    rw [ht]
    unfold twosComplement
    rw [Int.toNat_of_nonneg htnn]
    split_ifs with hv
    · exact Int.emod_eq_of_lt hv (by rw [hfull]; omega)
    · rw [← heq]
      exact Int.emod_eq_of_lt (by rw [hfull]; omega) (by rw [hfull]; omega)
  have htlt : t < 2 ^ f.report_size := by
    have h2 : ((t : Nat) : Int) < ((2 ^ f.report_size : Nat) : Int) := by
      rw [hcast, ht]
      unfold twosComplement
      rw [Int.toNat_of_nonneg htnn]
      exact htlt'
    exact_mod_cast h2
  have henc : encodeField buf f v = writeBits buf f.bit_offset f.report_size t := by
    unfold encodeField
    rw [if_pos hneg, ht]
  have hread : readBits (encodeField buf f v) f.bit_offset f.report_size = t := by
    rw [henc, readBits_writeBits _ _ _ _ hfit, Nat.mod_eq_of_lt htlt]
  have hdec : decodeField (encodeField buf f v) f =
      signExtend f.report_size
        (readBits (encodeField buf f v) f.bit_offset f.report_size) := by
    unfold decodeField
    rw [if_pos hneg]
  rw [hdec, hread]
  unfold signExtend
  split_ifs with hcond
  · rw [htInt]
    split_ifs with hv
    · exfalso
      have hc2 : ((2 : Int) ^ (f.report_size - 1)) ≤ (t : Int) := by
        rw [← hcast2]
        exact_mod_cast hcond
      rw [htInt, if_pos hv, hhalf] at hc2
      omega
    · omega
  · rw [htInt]
    split_ifs with hv
    · rfl
    · exfalso
      have hc2 : (t : Int) < ((2 : Int) ^ (f.report_size - 1)) := by
        rw [← hcast2]
        exact_mod_cast Nat.lt_of_not_le hcond
      rw [htInt, if_neg hv, hhalf, hfull] at hc2
      omega

theorem C3_sign_round_trip_witness :
    decodeField (encodeField [0, 0] (HidFieldGeom.mk 4 8 (-127) 127) (-5))
      (HidFieldGeom.mk 4 8 (-127) 127) = -5 :=
  C3_sign_round_trip [0, 0] (HidFieldGeom.mk 4 8 (-127) 127) (-5)
    (by decide) (by decide) (by decide) (by decide) (by decide) (by decide)
    (by decide)

/-! ## The descriptor item stream

Modelled from the spec: the item stream reader (part of the engine
module hidtools/hid.py, which is not in the source tree).  The header
byte carries tag and class in its high six bits and a size code in its
low two bits; size codes 0, 1, 2 mean that many payload bytes and size
code 3 means four.  A declared payload longer than the remaining stream
is a truncation error.  The item code values follow the hid_items
tables of hid.py. -/

/-- One decoded descriptor item: the header byte and its payload. -/
structure RItem where
  hdr : Nat
  payload : List Nat
deriving DecidableEq

/-- Payload length encoded in an item header byte. -/
def itemSize (hdr : Nat) : Nat := if hdr % 4 = 3 then 4 else hdr % 4

/-- The one-byte item code: the header with the size bits cleared. -/
def itemTagClass (hdr : Nat) : Nat := hdr - hdr % 4

/-- The item stream reader, fuelled by the remaining byte count. -/
def parseItemsGo : Nat → List Nat → Option (List RItem)
  | _, [] => some []
  | 0, _ :: _ => none
  | fuel + 1, hdr :: rest =>
    if rest.length < itemSize hdr then none
    else
      match parseItemsGo fuel (rest.drop (itemSize hdr)) with
      | some its => some (⟨hdr, rest.take (itemSize hdr)⟩ :: its)
      | none => none

/-- Parse a report descriptor byte sequence into its item sequence. -/
def parseRdescItems (bs : List Nat) : Option (List RItem) :=
  parseItemsGo bs.length bs

/-- The wire bytes of one item. -/
def itemBytes (it : RItem) : List Nat := it.hdr :: it.payload

/-- The wire bytes of an item sequence. -/
def flattenItems : List RItem → List Nat
  | [] => []
  | it :: its => itemBytes it ++ flattenItems its

/-- The reader splits the stream losslessly: the items' bytes are the
input bytes. -/
theorem parseItemsGo_flatten : ∀ (fuel : Nat) (bs : List Nat) (its : List RItem),
    bs.length ≤ fuel → parseItemsGo fuel bs = some its → flattenItems its = bs := by
  intro fuel
  induction fuel with
  | zero =>
    intro bs its hlen hp
    cases bs with
    | nil =>
      simp only [parseItemsGo, Option.some.injEq] at hp
      rw [← hp]
      rfl
    | cons hdr rest => simp at hlen
  | succ fuel ih =>
    intro bs its hlen hp
    cases bs with
    | nil =>
      simp only [parseItemsGo, Option.some.injEq] at hp
      rw [← hp]
      rfl
    | cons hdr rest =>
      rw [parseItemsGo] at hp
      split_ifs at hp with htrunc
      · cases hrec : parseItemsGo fuel (rest.drop (itemSize hdr)) with
        | none => rw [hrec] at hp; exact absurd hp (by simp)
        | some its' =>
          rw [hrec] at hp
          simp only [Option.some.injEq] at hp
          rw [← hp]
          show itemBytes ⟨hdr, rest.take (itemSize hdr)⟩ ++ flattenItems its' =
            hdr :: rest
          rw [ih _ _ (by simp only [List.length_drop]; simp at hlen; omega) hrec]
          simp [itemBytes]

theorem parseItemsGo_payload : ∀ (fuel : Nat) (bs : List Nat) (its : List RItem),
    parseItemsGo fuel bs = some its →
    ∀ it ∈ its, it.payload.length = itemSize it.hdr := by
  intro fuel
  induction fuel with
  | zero =>
    intro bs its hp it hit
    cases bs with
    | nil =>
      simp only [parseItemsGo, Option.some.injEq] at hp
      rw [← hp] at hit
      simp at hit
    | cons hdr rest => simp [parseItemsGo] at hp
  | succ fuel ih =>
    intro bs its hp it hit
    cases bs with
    | nil =>
      simp only [parseItemsGo, Option.some.injEq] at hp
      rw [← hp] at hit
      simp at hit
    | cons hdr rest =>
      rw [parseItemsGo] at hp
      split_ifs at hp with htrunc
      · cases hrec : parseItemsGo fuel (rest.drop (itemSize hdr)) with
        | none => rw [hrec] at hp; exact absurd hp (by simp)
        | some its' =>
          rw [hrec] at hp
          simp only [Option.some.injEq] at hp
          rw [← hp] at hit
          rcases List.mem_cons.mp hit with rfl | hit'
          · simp only [List.length_take]
            omega
          · exact ih _ _ hrec it hit'

theorem mem_flattenItems : ∀ (its : List RItem) (it : RItem), it ∈ its →
    ∀ b ∈ itemBytes it, b ∈ flattenItems its := by
  intro its
  induction its with
  | nil => intro it hit; simp at hit
  | cons it0 its ih =>
    intro it hit b hb
    rcases List.mem_cons.mp hit with rfl | hit'
    · show b ∈ itemBytes it ++ flattenItems its
      exact List.mem_append_left _ hb
    · show b ∈ itemBytes it0 ++ flattenItems its
      exact List.mem_append_right _ (ih it hit' b hb)

/-! ## Splitting on the comma-space separator

The test helper as_int_list joins the dump lines with ", " and splits
the result on ", " again.  The separator cannot overlap itself, so the
Python left-to-right greedy split equals this right fold. -/

/-- One right-fold step of splitting on ", ". -/
def splitCSstep (c : Char) (st : List (List Char)) : List (List Char) :=
  match st with
  | [] => [[c]]
  | tok :: toks =>
    if c = ',' ∧ tok.head? = some ' ' then [] :: tok.tail :: toks
    else (c :: tok) :: toks

/-- Split a character list on the separator ", ", as Python str.split
with a comma-space argument. -/
def splitCS (s : List Char) : List (List Char) := s.foldr splitCSstep [[]]

/-- Join with the separator ", ", as the Python join in as_int_list. -/
def joinCS : List (List Char) → List Char
  | [] => []
  | [l] => l
  | l :: l2 :: ls => l ++ ',' :: ' ' :: joinCS (l2 :: ls)

theorem splitCS_nil : splitCS [] = [[]] := rfl

theorem splitCS_cons (c : Char) (s : List Char) :
    splitCS (c :: s) = splitCSstep c (splitCS s) := rfl

theorem splitCS_append_no_comma (t : List Char) (ht : ∀ c ∈ t, c ≠ ',') :
    ∀ (s x : List Char) (xs : List (List Char)),
    splitCS s = x :: xs → splitCS (t ++ s) = (t ++ x) :: xs := by
  induction t with
  | nil => intro s x xs h; simpa using h
  | cons c t ih =>
    intro s x xs h
    have hc : c ≠ ',' := ht c (by simp)
    have ht' : ∀ d ∈ t, d ≠ ',' := fun d hd => ht d (by simp [hd])
    have hrec := ih ht' s x xs h
    show splitCS (c :: (t ++ s)) = (c :: (t ++ x)) :: xs
    rw [splitCS_cons, hrec]
    simp only [splitCSstep]
    rw [if_neg (fun hand => hc hand.1)]

theorem splitCS_sep (t : List Char) (ht : ∀ c ∈ t, c ≠ ',') (s : List Char)
    (l : List (List Char)) (h : splitCS s = l) (hl : l ≠ []) :
    splitCS (t ++ ',' :: ' ' :: s) = t :: l := by
  cases l with
  | nil => exact absurd rfl hl
  | cons x xs =>
    have e1 : splitCSstep ' ' (x :: xs) = (' ' :: x) :: xs := by
      simp only [splitCSstep]
      rw [if_neg (by simp)]
    have e2 : splitCSstep ',' ((' ' :: x) :: xs) = [] :: x :: xs := by
      simp only [splitCSstep]
      rw [if_pos (by simp)]
      rfl
    have h2 : splitCS (',' :: ' ' :: s) = [] :: x :: xs := by
      rw [splitCS_cons, splitCS_cons, h, e1, e2]
    have h3 := splitCS_append_no_comma t ht _ _ _ h2
    simpa using h3

theorem splitCS_no_comma (t : List Char) (ht : ∀ c ∈ t, c ≠ ',') :
    splitCS t = [t] := by
  have h3 := splitCS_append_no_comma t ht [] [] [] splitCS_nil
  simpa using h3

/-! ## The annotated descriptor dump

Modelled from the spec: the formatter renders one line per item — the
item's raw bytes as 0xNN hex pairs each followed by comma-space, then a
comment with the item name, a parenthesized interpreted value for
generic items, and the cumulative byte offset of the item within the
descriptor; indentation reflects collection nesting depth, and the
Push / Pop / End Collection items render as fixed single-byte lines
with no value column.  The item name table is the hid_items table of
hid.py. -/

/-- One 0xNN token of the dump's hex column. -/
def hexTok (b : Nat) : List Char := '0' :: 'x' :: pyFmt02x b

/-- The hex column of one line: every byte as 0xNN followed by ", ". -/
def hexColumn : List Nat → List Char
  | [] => []
  | b :: bs => hexTok b ++ ',' :: ' ' :: hexColumn bs

/-- A dump line: the hex column of the item's bytes followed by the
comment column. -/
def renderedLine (bs : List Nat) (comment : List Char) : List Char :=
  hexColumn bs ++ comment

/-- The item names keyed by item code, from the hid_items tables of
hid.py. -/
def itemNames : List (Nat × String) :=
  [(0x80, "Input"), (0x90, "Output"), (0xb0, "Feature"),
   (0xa0, "Collection"), (0xc0, "End Collection"),
   (0x04, "Usage Page"), (0x14, "Logical Minimum"), (0x24, "Logical Maximum"),
   (0x34, "Physical Minimum"), (0x44, "Physical Maximum"),
   (0x54, "Unit Exponent"), (0x64, "Unit"), (0x74, "Report Size"),
   (0x84, "Report ID"), (0x94, "Report Count"), (0xa4, "Push"), (0xb4, "Pop"),
   (0x08, "Usage"), (0x18, "Usage Minimum"), (0x28, "Usage Maximum"),
   (0x38, "Designator Index"), (0x48, "Designator Minimum"),
   (0x58, "Designator Maximum"), (0x78, "String Index"),
   (0x88, "String Minimum"), (0x98, "String Maximum"), (0xa8, "Delimiter")]

/-- The human-readable name of an item code. -/
def itemName (p : Nat) : String :=
  (((itemNames.find? (fun e => e.1 == p)).map (fun e => e.2)).getD ("Unknown"))

/-- Little-endian unsigned value of an item payload. -/
def leValue : List Nat → Nat
  | [] => 0
  | b :: bs => b + 256 * leValue bs

/-- Whether an item code is one of the fixed single-byte tokens Push,
Pop, End Collection. -/
def isFixedToken (p : Nat) : Bool := p = 0xa4 ∨ p = 0xb4 ∨ p = 0xc0

/-- The comment column of one annotated dump line. -/
def commentChars (off depth : Nat) (it : RItem) : List Char :=
  '/' :: '/' :: ' ' :: (List.replicate depth ' ' ++
    (itemName (itemTagClass it.hdr)).data ++
    (if isFixedToken (itemTagClass it.hdr) then []
     else ' ' :: '(' :: (natChars 10 (leValue it.payload) ++ [')'])) ++
    ' ' :: natChars 10 off)

/-- One annotated dump line for an item at byte offset off. -/
def itemLine (off depth : Nat) (it : RItem) : List Char :=
  renderedLine (itemBytes it) (commentChars off depth it)

/-- The per-line data of the dump: the item bytes and the comment of
each line, tracking the cumulative byte offset and nesting depth (End
Collection dedents its own line, Collection indents what follows). -/
def lineData (off depth : Nat) : List RItem → List (List Nat × List Char)
  | [] => []
  | it :: rest =>
    (itemBytes it,
     commentChars off (if itemTagClass it.hdr = 0xc0 then depth - 1 else depth) it) ::
      lineData (off + 1 + it.payload.length)
        (if itemTagClass it.hdr = 0xc0 then depth - 1
         else if itemTagClass it.hdr = 0xa0 then depth + 1 else depth) rest

/-- The annotated dump lines of an item sequence. -/
def formatLinesGo (off depth : Nat) (its : List RItem) : List (List Char) :=
  (lineData off depth its).map (fun p => renderedLine p.1 p.2)

/-- The annotated dump of a descriptor byte sequence. -/
def formatRdesc (bs : List Nat) : Option (List (List Char)) :=
  (parseRdescItems bs).map (formatLinesGo 0 0)

/-! ## The test suite's extraction helpers

Embedding of HidDecodeOutput in tests/test_cli_decode.py: the decode
tool writes every dump line behind a hash-space marker;
initial_rdesc_dump selects those lines and strips the marker, and
as_int_list joins them with comma-space, splits on comma-space, keeps
the tokens starting 0x and reads them as hexadecimal integers. -/

/-- Whether a token starts with the two characters 0x. -/
def startsWith0x (t : List Char) : Bool :=
  match t with
  | '0' :: 'x' :: _ => true
  | _ => false

/-- Read a 0x-prefixed hexadecimal token, as the Python int(tok, 16)
conversion of the kept tokens (failure models the raised ValueError). -/
def parseIntHexTok (t : List Char) : Option Nat :=
  match t with
  | '0' :: 'x' :: ds =>
    if ds ≠ [] ∧ ds.all (fun c => decide (c ∈ hexCharTable)) then some (valBE 16 ds)
    else none
  | _ => none

/-- Collect a list of optional values, failing if any is missing. -/
def allSome : List (Option Nat) → Option (List Nat)
  | [] => some []
  | none :: _ => none
  | some x :: r =>
    match allSome r with
    | some xs => some (x :: xs)
    | none => none

/-- Embedding of HidDecodeOutput.as_int_list over the dump lines. -/
def asIntList (lines : List (List Char)) : Option (List Nat) :=
  allSome (((splitCS (joinCS lines)).filter startsWith0x).map parseIntHexTok)

/-- Python str.lstrip with the character set hash-space. -/
def lstripHS : List Char → List Char
  | [] => []
  | c :: r => if c = '#' ∨ c = ' ' then lstripHS r else c :: r

/-- Containment of a pattern as a contiguous substring. -/
def containsSub (pat s : List Char) : Bool :=
  s.tails.any (fun t => pat.isPrefixOf t)

/-- Embedding of HidDecodeOutput.initial_rdesc_dump over the output
lines. -/
def initialRdescDump (ls : List (List Char)) : List (List Char) :=
  ((ls.filter (fun o => (['#', ' '] : List Char).isPrefixOf o)).map lstripHS).filter
    (fun o => !(o.all (fun c => c.isWhitespace)) && !(containsSub (("device ").data) o))

/-- The hash-space marker the decode tool writes before each dump line. -/
def decorate (ls : List (List Char)) : List (List Char) :=
  ls.map (fun l => '#' :: ' ' :: l)

/-! ## Character inventories of the dump lines -/

theorem pyFmt02x_chars (b : Nat) : ∀ c ∈ pyFmt02x b, ∃ d < 16, c = digChar d := by
  intro c hc
  rcases padZeros_mem _ _ c hc with rfl | hc
  · exact ⟨0, by omega, by decide⟩
  · exact natChars_mem (by omega) (by omega) b c hc

theorem hexTok_chars (b : Nat) :
    ∀ c ∈ hexTok b, c = '0' ∨ c = 'x' ∨ ∃ d < 16, c = digChar d := by
  intro c hc
  simp only [hexTok, List.mem_cons] at hc
  rcases hc with rfl | rfl | hc
  · exact Or.inl rfl
  · exact Or.inr (Or.inl rfl)
  · exact Or.inr (Or.inr (pyFmt02x_chars b c hc))

theorem hexTok_no_comma (b : Nat) : ∀ c ∈ hexTok b, c ≠ ',' := by
  intro c hc
  rcases hexTok_chars b c hc with rfl | rfl | ⟨d, _, rfl⟩
  · decide
  · decide
  · exact digChar_ne_comma d

theorem hexColumn_chars (bs : List Nat) :
    ∀ c ∈ hexColumn bs,
      c = '0' ∨ c = 'x' ∨ c = ',' ∨ c = ' ' ∨ ∃ d < 16, c = digChar d := by
  induction bs with
  | nil => intro c hc; simp [hexColumn] at hc
  | cons b bs ih =>
    intro c hc
    simp only [hexColumn, List.mem_append, List.mem_cons] at hc
    rcases hc with hc | rfl | rfl | hc
    · rcases hexTok_chars b c hc with rfl | rfl | h
      · exact Or.inl rfl
      · exact Or.inr (Or.inl rfl)
      · exact Or.inr (Or.inr (Or.inr (Or.inr h)))
    · exact Or.inr (Or.inr (Or.inl rfl))
    · exact Or.inr (Or.inr (Or.inr (Or.inl rfl)))
    · exact ih c hc

theorem itemName_chars (p : Nat) :
    ∀ c ∈ (itemName p).data, c ≠ ',' ∧ c ≠ 'v' := by
  unfold itemName
  cases hf : itemNames.find? (fun e => e.1 == p) with
  | none =>
    intro c hc
    simp only [Option.map, Option.getD] at hc
    revert hc
    revert c
    decide
  | some e =>
    have hmem : e ∈ itemNames := List.mem_of_find?_eq_some hf
    intro c hc
    simp only [Option.map, Option.getD] at hc
    have htable : ∀ e2 ∈ itemNames, ∀ c2 ∈ e2.2.data, c2 ≠ ',' ∧ c2 ≠ 'v' := by
      decide
    exact htable e hmem c hc

theorem natChars10_chars (n : Nat) :
    ∀ c ∈ natChars 10 n, c ≠ ',' ∧ c ≠ 'v' := by
  intro c hc
  rcases natChars_mem (by omega) (by omega) n c hc with ⟨d, _, rfl⟩
  exact ⟨digChar_ne_comma d, digChar_ne_v d⟩

theorem commentChars_head (off depth : Nat) (it : RItem) :
    (commentChars off depth it).head? = some '/' := rfl

theorem commentChars_chars (off depth : Nat) (it : RItem) :
    ∀ c ∈ commentChars off depth it, c ≠ ',' ∧ c ≠ 'v' := by
  intro c hc
  unfold commentChars at hc
  rcases List.mem_cons.mp hc with rfl | hc
  · exact ⟨by decide, by decide⟩
  rcases List.mem_cons.mp hc with rfl | hc
  · exact ⟨by decide, by decide⟩
  rcases List.mem_cons.mp hc with rfl | hc
  · exact ⟨by decide, by decide⟩
  rcases List.mem_append.mp hc with hc | hc
  · rcases List.mem_append.mp hc with hc | hc
    · rcases List.mem_append.mp hc with hc | hc
      · have := List.eq_of_mem_replicate hc
        subst this
        exact ⟨by decide, by decide⟩
      · exact itemName_chars _ c hc
    · split_ifs at hc with hfix
      · exact absurd hc (List.not_mem_nil c)
      · rcases List.mem_cons.mp hc with rfl | hc
        · exact ⟨by decide, by decide⟩
        rcases List.mem_cons.mp hc with rfl | hc
        · exact ⟨by decide, by decide⟩
        rcases List.mem_append.mp hc with hc | hc
        · exact natChars10_chars _ c hc
        · rcases List.mem_singleton.mp hc with rfl
          exact ⟨by decide, by decide⟩
  · rcases List.mem_cons.mp hc with rfl | hc
    · exact ⟨by decide, by decide⟩
    · exact natChars10_chars _ c hc

/-! ## Extraction of the bytes from the dump -/

/-- The token list the comma-space split of a joined dump yields: the
hex tokens of each line followed by the line's comment token. -/
def tokensOf : List (List Nat × List Char) → List (List Char)
  | [] => []
  | p :: rest => p.1.map hexTok ++ p.2 :: tokensOf rest

/-- The bytes carried by the lines. -/
def bytesOf : List (List Nat × List Char) → List Nat
  | [] => []
  | p :: rest => p.1 ++ bytesOf rest

theorem splitCS_hexColumn (bs : List Nat) :
    ∀ (s : List Char) (l : List (List Char)), splitCS s = l → l ≠ [] →
    splitCS (hexColumn bs ++ s) = bs.map hexTok ++ l := by
  induction bs with
  | nil => intro s l h _; simpa using h
  | cons b bs ih =>
    intro s l h hl
    have inner := ih s l h hl
    have hassoc : hexColumn (b :: bs) ++ s =
        hexTok b ++ ',' :: ' ' :: (hexColumn bs ++ s) := by
      simp [hexColumn, List.append_assoc]
    rw [hassoc, splitCS_sep (hexTok b) (hexTok_no_comma b) _ _ inner
      (by simp [hl])]
    simp

theorem splitCS_joined : ∀ (L : List (List Nat × List Char)),
    (∀ p ∈ L, ∀ c ∈ p.2, c ≠ ',') → L ≠ [] →
    splitCS (joinCS (L.map (fun p => renderedLine p.1 p.2))) = tokensOf L := by
  intro L
  induction L with
  | nil => intro _ h; exact absurd rfl h
  | cons p rest ih =>
    intro hcomma _
    have hp : ∀ c ∈ p.2, c ≠ ',' := hcomma p (by simp)
    cases rest with
    | nil =>
      show splitCS (renderedLine p.1 p.2) = tokensOf [p]
      unfold renderedLine
      rw [splitCS_hexColumn p.1 p.2 [p.2] (splitCS_no_comma p.2 hp) (by simp)]
      rfl
    | cons q rest' =>
      have hrest : ∀ r ∈ q :: rest', ∀ c ∈ r.2, c ≠ ',' :=
        fun r hr => hcomma r (by simp [hr])
      have hrec := ih hrest (by simp)
      have hjoin : joinCS ((p :: q :: rest').map (fun r => renderedLine r.1 r.2)) =
          hexColumn p.1 ++ (p.2 ++ ',' :: ' ' ::
            joinCS ((q :: rest').map (fun r => renderedLine r.1 r.2))) := by
        simp [joinCS, renderedLine, List.append_assoc]
      rw [hjoin]
      have hmid : splitCS (p.2 ++ ',' :: ' ' ::
          joinCS ((q :: rest').map (fun r => renderedLine r.1 r.2))) =
          p.2 :: tokensOf (q :: rest') := by
        apply splitCS_sep p.2 hp _ _ hrec
        show tokensOf (q :: rest') ≠ []
        simp [tokensOf]
      rw [splitCS_hexColumn p.1 _ _ hmid (by simp)]
      rfl

theorem startsWith0x_hexTok (b : Nat) : startsWith0x (hexTok b) = true := rfl

theorem startsWith0x_comment (t : List Char) (h : t.head? = some '/') :
    startsWith0x t = false := by
  cases t with
  | nil => simp at h
  | cons c r =>
    simp only [List.head?] at h
    cases h
    rfl

theorem filter_tokensOf : ∀ (L : List (List Nat × List Char)),
    (∀ p ∈ L, p.2.head? = some '/') →
    (tokensOf L).filter startsWith0x = (bytesOf L).map hexTok := by
  intro L
  induction L with
  | nil => intro _; rfl
  | cons p rest ih =>
    intro hh
    show ((p.1.map hexTok ++ p.2 :: tokensOf rest).filter startsWith0x) =
      (p.1 ++ bytesOf rest).map hexTok
    rw [List.filter_append, List.map_append]
    congr 1
    · rw [List.filter_eq_self.mpr]
      intro t ht
      rcases List.mem_map.mp ht with ⟨b, _, rfl⟩
      exact startsWith0x_hexTok b
    · rw [List.filter_cons_of_neg]
      · exact ih (fun q hq => hh q (by simp [hq]))
      · rw [startsWith0x_comment p.2 (hh p (by simp))]
        simp

theorem parseIntHexTok_eq (ds : List Char) :
    parseIntHexTok ('0' :: 'x' :: ds) =
      if ds ≠ [] ∧ (ds.all fun c => decide (c ∈ hexCharTable)) = true then
        some (valBE 16 ds)
      else none := rfl

theorem parseIntHexTok_hexTok {b : Nat} (hb : b < 256) :
    parseIntHexTok (hexTok b) = some b := by
  have hspec := pyFmt02x_spec hb
  show parseIntHexTok ('0' :: 'x' :: pyFmt02x b) = some b
  rw [parseIntHexTok_eq]
  rw [if_pos]
  · rw [hspec.2.2]
  · constructor
    · intro hnil
      have := hspec.1
      rw [hnil] at this
      simp at this
    · rw [List.all_eq_true]
      intro c hc
      rcases pyFmt02x_chars b c hc with ⟨d, hd, rfl⟩
      rw [decide_eq_true_eq]
      unfold digChar
      have : d < hexCharTable.length := by simp [hexCharTable]; omega
      rw [List.getD_eq_getElem _ _ this]
      exact List.getElem_mem this

theorem allSome_hexToks : ∀ (bs : List Nat), (∀ b ∈ bs, b < 256) →
    allSome ((bs.map hexTok).map parseIntHexTok) = some bs := by
  intro bs
  induction bs with
  | nil => intro _; rfl
  | cons b bs ih =>
    intro hlt
    show allSome (parseIntHexTok (hexTok b) ::
      (bs.map hexTok).map parseIntHexTok) = some (b :: bs)
    rw [parseIntHexTok_hexTok (hlt b (by simp))]
    show (match allSome ((bs.map hexTok).map parseIntHexTok) with
      | some xs => some (b :: xs)
      | none => none) = some (b :: bs)
    rw [ih (fun x hx => hlt x (by simp [hx]))]

/-! ## The decode tool's comment marker round trip -/

theorem lstripHS_marker (l : List Char) (h : l.head? = some '0') :
    lstripHS ('#' :: ' ' :: l) = l := by
  show lstripHS ('#' :: ' ' :: l) = l
  rw [lstripHS, if_pos (by simp), lstripHS, if_pos (by simp)]
  cases l with
  | nil => rfl
  | cons c r =>
    simp only [List.head?] at h
    cases h
    rw [lstripHS, if_neg (by simp)]

theorem containsSub_mem (pat s : List Char) (h : containsSub pat s = true) :
    ∀ c ∈ pat, c ∈ s := by
  unfold containsSub at h
  rw [List.any_eq_true] at h
  rcases h with ⟨t, ht, hpre⟩
  have hsub : t <:+ s := (List.mem_tails t s).mp ht
  have hp : pat <+: t := List.isPrefixOf_iff_prefix.mp hpre
  intro c hc
  exact hsub.subset (hp.subset hc)

theorem initialRdescDump_decorate (ls : List (List Char))
    (h0 : ∀ l ∈ ls, l.head? = some '0') (hv : ∀ l ∈ ls, 'v' ∉ l) :
    initialRdescDump (decorate ls) = ls := by
  induction ls with
  | nil => rfl
  | cons l ls ih =>
    have hl0 : l.head? = some '0' := h0 l (by simp)
    have hlv : 'v' ∉ l := hv l (by simp)
    have hrest := ih (fun x hx => h0 x (by simp [hx])) (fun x hx => hv x (by simp [hx]))
    unfold initialRdescDump decorate at hrest ⊢
    rw [List.map_cons, List.filter_cons_of_pos (by simp [List.isPrefixOf]),
      List.map_cons, lstripHS_marker l hl0, List.filter_cons_of_pos, hrest]
    rw [Bool.and_eq_true, Bool.not_eq_eq_eq_not, Bool.not_eq_eq_eq_not]
    constructor
    · show l.all (fun c => c.isWhitespace) = false
      rw [List.all_eq_false]
      cases l with
      | nil => simp at hl0
      | cons c r =>
        simp only [List.head?] at hl0
        cases hl0
        exact ⟨'0', by simp, by decide⟩
    · show containsSub (("device ").data) l = false
      by_contra hcon
      rw [Bool.not_eq_false] at hcon
      exact hlv (containsSub_mem _ _ hcon 'v' (by decide))

/-! ## The dump round trip -/

theorem lineData_bytes : ∀ (its : List RItem) (off depth : Nat),
    bytesOf (lineData off depth its) = flattenItems its := by
  intro its
  induction its with
  | nil => intro off depth; rfl
  | cons it rest ih =>
    intro off depth
    simp only [lineData, bytesOf, flattenItems]
    rw [ih]

theorem lineData_shape : ∀ (its : List RItem) (off depth : Nat)
    (p : List Nat × List Char), p ∈ lineData off depth its →
    (∃ it ∈ its, p.1 = itemBytes it) ∧ p.2.head? = some '/' ∧
      ∀ c ∈ p.2, c ≠ ',' ∧ c ≠ 'v' := by
  intro its
  induction its with
  | nil => intro off depth p hp; simp [lineData] at hp
  | cons it rest ih =>
    intro off depth p hp
    rw [lineData] at hp
    rcases List.mem_cons.mp hp with rfl | hp'
    · exact ⟨⟨it, by simp, rfl⟩, commentChars_head _ _ _, commentChars_chars _ _ _⟩
    · obtain ⟨⟨it2, hit2, h1⟩, h2, h3⟩ := ih _ _ p hp'
      exact ⟨⟨it2, by simp [hit2], h1⟩, h2, h3⟩

theorem renderedLine_head (b : Nat) (bs : List Nat) (comment : List Char) :
    (renderedLine (b :: bs) comment).head? = some '0' := rfl

theorem renderedLine_no_v (bs : List Nat) (comment : List Char)
    (hcomment : ∀ c ∈ comment, c ≠ 'v') : 'v' ∉ renderedLine bs comment := by
  intro hmem
  rcases List.mem_append.mp hmem with h | h
  · rcases hexColumn_chars bs 'v' h with h | h | h | h | ⟨d, _, h⟩
    · exact absurd h.symm (by decide)
    · exact absurd h.symm (by decide)
    · exact absurd h.symm (by decide)
    · exact absurd h.symm (by decide)
    · exact digChar_ne_v d h.symm
  · exact hcomment 'v' h rfl

/-- C1: for every syntactically valid report descriptor byte sequence,
formatting the parsed descriptor as the annotated hex dump and
extracting the hex byte pairs back from the dump's lines (as
HidDecodeOutput.as_int_list does over the hash-commented dump) yields
exactly the original byte sequence, and reparsing the extracted bytes
reproduces the identical byte sequence and item tree. -/
theorem C1_dump_round_trip (bs : List Nat) (its : List RItem)
    (hb : ∀ b ∈ bs, b < 256) (hp : parseRdescItems bs = some its) :
    asIntList (initialRdescDump (decorate (formatLinesGo 0 0 its))) = some bs ∧
    ∀ out, asIntList (initialRdescDump (decorate (formatLinesGo 0 0 its))) = some out →
      out = bs ∧ parseRdescItems out = some its := by
  have hflat : flattenItems its = bs := parseItemsGo_flatten _ _ _ le_rfl hp
  have hmain : asIntList (initialRdescDump (decorate (formatLinesGo 0 0 its))) =
      some bs := by
    cases its with
    | nil =>
      rw [← hflat]
      rfl
    | cons it0 its' =>
      have hshape := lineData_shape (it0 :: its') 0 0
      have hstrip : initialRdescDump (decorate (formatLinesGo 0 0 (it0 :: its'))) =
          formatLinesGo 0 0 (it0 :: its') := by
        apply initialRdescDump_decorate
        · intro l hl
          rcases List.mem_map.mp hl with ⟨p, hpL, rfl⟩
          rcases (hshape p hpL).1 with ⟨it, _, hp1⟩
          rw [hp1]
          exact renderedLine_head it.hdr it.payload p.2
        · intro l hl
          rcases List.mem_map.mp hl with ⟨p, hpL, rfl⟩
          exact renderedLine_no_v p.1 p.2 (fun c hc => ((hshape p hpL).2.2 c hc).2)
      rw [hstrip]
      unfold asIntList
      rw [show formatLinesGo 0 0 (it0 :: its') =
        (lineData 0 0 (it0 :: its')).map (fun p => renderedLine p.1 p.2) from rfl]
      rw [splitCS_joined (lineData 0 0 (it0 :: its'))
        (fun p hpL c hc => ((hshape p hpL).2.2 c hc).1) (by simp [lineData])]
      rw [filter_tokensOf (lineData 0 0 (it0 :: its'))
        (fun p hpL => (hshape p hpL).2.1)]
      rw [lineData_bytes (it0 :: its') 0 0, hflat]
      exact allSome_hexToks bs hb
  refine ⟨hmain, ?_⟩
  intro out hout
  rw [hmain] at hout
  injection hout with hout
  subst hout
  exact ⟨rfl, hp⟩

theorem C1_dump_round_trip_witness :
    (∀ b ∈ [5, 1, 9, 2, 192], b < 256) ∧
    asIntList (initialRdescDump (decorate (formatLinesGo 0 0
      [⟨5, [1]⟩, ⟨9, [2]⟩, ⟨192, []⟩]))) = some [5, 1, 9, 2, 192] :=
  ⟨by decide,
   (C1_dump_round_trip [5, 1, 9, 2, 192] [⟨5, [1]⟩, ⟨9, [2]⟩, ⟨192, []⟩]
     (by decide) (by decide)).1⟩

/-! ## The fixed single-byte tokens and the offset column

The test data RDESC_COMMENTS in tests/test_cli_decode.py records the
annotated dump of the mouse descriptor, and test_dump asserts the
numeric suffixes of its lines; those suffixes are cumulative byte
offsets of the items within the descriptor, not bit offsets. -/

/-- The mouse report descriptor bytes of the src test data
(RDESC_NORMAL and RDESC_COMMENTS in tests/test_cli_decode.py). -/
def rdescNormalBytes : List Nat :=
  [0x05, 0x01, 0x09, 0x02, 0xa1, 0x01, 0x09, 0x01, 0xa1, 0x00, 0x05, 0x09,
   0x19, 0x01, 0x29, 0x10, 0x15, 0x00, 0x25, 0x01, 0x95, 0x10, 0x75, 0x01,
   0x81, 0x02, 0x05, 0x01, 0x16, 0x01, 0x80, 0x26, 0xff, 0x7f, 0x75, 0x10,
   0x95, 0x02, 0x09, 0x30, 0x09, 0x31, 0x81, 0x06, 0x15, 0x81, 0x25, 0x7f,
   0x75, 0x08, 0x95, 0x01, 0x09, 0x38, 0x81, 0x06, 0x05, 0x0c, 0x0a, 0x38,
   0x02, 0x95, 0x01, 0x81, 0x06, 0xc0, 0xc0]

/-- The recorded dump line of the inner End Collection item in
RDESC_COMMENTS (tests/test_cli_decode.py line 80), comment marker
stripped. -/
def rdescCommentsEndCollectionLine : String :=
  "0xc0,                          //  End Collection                     65"

/-- The cumulative byte offset of each item within the descriptor. -/
def itemByteOffsets : Nat → List RItem → List Nat
  | _, [] => []
  | off, it :: rest => off :: itemByteOffsets (off + 1 + it.payload.length) rest

/-- C4 counterexample: the claim says the Push / Pop / End Collection
lines carry the cumulative bit offset of the item.  The inner End
Collection item of the mouse descriptor is item 31, at byte offset 65,
so its cumulative bit offset within the descriptor is 520; but the
dump line recorded in the src test data ends with 65, the byte offset,
not 520. -/
theorem C4_bit_offset_counterexample :
    (parseRdescItems rdescNormalBytes).bind (fun its => its[31]?) =
      some ⟨0xc0, []⟩ ∧
    (parseRdescItems rdescNormalBytes).bind
      (fun its => (itemByteOffsets 0 its)[31]?) = some 65 ∧
    8 * 65 = 520 ∧
    ((" 65").data).isSuffixOf rdescCommentsEndCollectionLine.data = true ∧
    ((" 520").data).isSuffixOf rdescCommentsEndCollectionLine.data = false ∧
    (65 : Nat) ≠ 520 := by
  refine ⟨by decide, by decide, rfl, by decide, by decide, by decide⟩

/-- The fixed single-byte dump line of a Push, Pop or End Collection
item: one hex pair, the comment with the item name and the cumulative
byte offset, and no parenthesized value column. -/
def fixedLine (hdr off d : Nat) : List Char :=
  '0' :: 'x' :: pyFmt02x hdr ++ ',' :: ' ' :: '/' :: '/' :: ' ' ::
    (List.replicate d ' ' ++ (itemName hdr).data ++ ' ' :: natChars 10 off)

theorem fixedLine_no_paren (hdr off d : Nat)
    (hname : ∀ c ∈ (itemName hdr).data, c ≠ '(') : '(' ∉ fixedLine hdr off d := by
  intro hmem
  unfold fixedLine at hmem
  rcases List.mem_cons.mp hmem with h | hmem
  · exact absurd h (by decide)
  rcases List.mem_cons.mp hmem with h | hmem
  · exact absurd h (by decide)
  rcases List.mem_append.mp hmem with hmem | hmem
  · rcases pyFmt02x_chars hdr '(' hmem with ⟨dg, _, hdg⟩
    exact digChar_ne_paren dg hdg.symm
  rcases List.mem_cons.mp hmem with h | hmem
  · exact absurd h (by decide)
  rcases List.mem_cons.mp hmem with h | hmem
  · exact absurd h (by decide)
  rcases List.mem_cons.mp hmem with h | hmem
  · exact absurd h (by decide)
  rcases List.mem_cons.mp hmem with h | hmem
  · exact absurd h (by decide)
  rcases List.mem_cons.mp hmem with h | hmem
  · exact absurd h (by decide)
  rcases List.mem_append.mp hmem with hmem | hmem
  · rcases List.mem_append.mp hmem with hmem | hmem
    · exact absurd (List.eq_of_mem_replicate hmem) (by decide)
    · exact hname '(' hmem rfl
  rcases List.mem_cons.mp hmem with h | hmem
  · exact absurd h (by decide)
  · rcases natChars_mem (by omega) (by omega) off '(' hmem with ⟨dg, _, hdg⟩
    exact digChar_ne_paren dg hdg.symm

theorem lineData_get : ∀ (its : List RItem) (i : Nat) (it : RItem)
    (off depth : Nat), its[i]? = some it →
    ∃ d, (lineData off depth its)[i]? =
      some (itemBytes it, commentChars ((itemByteOffsets off its).getD i 0) d it) := by
  intro its
  induction its with
  | nil => intro i it off depth h; simp at h
  | cons it0 rest ih =>
    intro i it off depth h
    cases i with
    | zero =>
      have hh : it0 = it := by simpa using h
      subst hh
      refine ⟨if itemTagClass it0.hdr = 0xc0 then depth - 1 else depth, ?_⟩
      rw [lineData, List.getElem?_cons_zero, itemByteOffsets, List.getD_cons_zero]
    | succ i =>
      rw [List.getElem?_cons_succ] at h
      obtain ⟨d, hd⟩ := ih i it (off + 1 + it0.payload.length)
        (if itemTagClass it0.hdr = 0xc0 then depth - 1
         else if itemTagClass it0.hdr = 0xa0 then depth + 1 else depth) h
      refine ⟨d, ?_⟩
      rw [lineData, List.getElem?_cons_succ, itemByteOffsets, List.getD_cons_succ]
      exact hd

/-- C4 amended: in the annotated dump, every Push, Pop and End
Collection item (wire bytes 0xa4, 0xb4, 0xc0) is rendered as a fixed
single-byte item line — exactly one hex pair, followed by the comment
with the item name and the cumulative byte offset of the item, with no
parenthesized value column. -/
theorem C4_fixed_single_byte_lines (bs : List Nat) (its : List RItem)
    (i : Nat) (it : RItem)
    (hp : parseRdescItems bs = some its) (hi : its[i]? = some it)
    (hfix : it.hdr = 0xa4 ∨ it.hdr = 0xb4 ∨ it.hdr = 0xc0) :
    ∃ d, (formatLinesGo 0 0 its)[i]? =
        some (fixedLine it.hdr ((itemByteOffsets 0 its).getD i 0) d) ∧
      '(' ∉ fixedLine it.hdr ((itemByteOffsets 0 its).getD i 0) d ∧
      (it.hdr = 0xa4 → itemName it.hdr = "Push") ∧
      (it.hdr = 0xb4 → itemName it.hdr = "Pop") ∧
      (it.hdr = 0xc0 → itemName it.hdr = "End Collection") := by
  have hmem : it ∈ its := List.getElem?_mem hi
  have hpl : it.payload = [] := by
    have hlen := parseItemsGo_payload _ _ _ hp it hmem
    have hsize : itemSize it.hdr = 0 := by
      rcases hfix with h | h | h <;> rw [h] <;> rfl
    rw [hsize] at hlen
    exact List.length_eq_zero.mp hlen
  have htag : itemTagClass it.hdr = it.hdr := by
    rcases hfix with h | h | h <;> rw [h] <;> rfl
  obtain ⟨d, hd⟩ := lineData_get its i it 0 0 hi
  refine ⟨d, ?_, ?_, ?_, ?_, ?_⟩
  · unfold formatLinesGo
    rw [List.getElem?_map, hd]
    simp only [Option.map]
    congr 1
    have hbytes : itemBytes it = [it.hdr] := by rw [itemBytes, hpl]
    have hfixb : isFixedToken (itemTagClass it.hdr) = true := by
      rcases hfix with h | h | h <;> rw [htag, h] <;> rfl
    unfold renderedLine fixedLine commentChars
    rw [hbytes, hfixb, htag]
    simp [hexColumn, hexTok]
  · apply fixedLine_no_paren
    rcases hfix with h | h | h <;> rw [h] <;> decide
  · intro h; rw [h]; rfl
  · intro h; rw [h]; rfl
  · intro h; rw [h]; rfl

theorem C4_fixed_single_byte_lines_witness :
    ∃ d, (formatLinesGo 0 0 [⟨0x05, [0x01]⟩, ⟨0xc0, []⟩])[1]? =
      some (fixedLine 0xc0 2 d) ∧ '(' ∉ fixedLine 0xc0 2 d := by
  obtain ⟨d, h1, h2, _, _, _⟩ := C4_fixed_single_byte_lines [0x05, 0x01, 0xc0]
    [⟨0x05, [0x01]⟩, ⟨0xc0, []⟩] 1 ⟨0xc0, []⟩ (by decide) (by decide)
    (by decide)
  exact ⟨d, h1, h2⟩

/-! ## The textual descriptor input forms

Modelled from the spec: report descriptor construction accepts, with no
format flag, raw bytes, a textual line of space-separated hex byte
pairs optionally prefixed by an R-colon count, and an annotated dump in
which hash-prefixed lines are ignored.  The R line itself is embedded
from HidrawDevice.dump in hidtools/hidraw.py. -/

/-- One right-fold step of splitting on a single space. -/
def splitSPstep (c : Char) (st : List (List Char)) : List (List Char) :=
  match st with
  | [] => [[c]]
  | tok :: toks => if c = ' ' then [] :: tok :: toks else (c :: tok) :: toks

/-- Split on single spaces, keeping empty pieces. -/
def splitSP (s : List Char) : List (List Char) := s.foldr splitSPstep [[]]

/-- Python str.split with no argument over space-separated text: split
on spaces and drop the empty pieces. -/
def splitWS (s : List Char) : List (List Char) :=
  (splitSP s).filter (fun t => !t.isEmpty)

/-- Read a two-character hexadecimal byte pair token. -/
def parseHexPairTok (t : List Char) : Option Nat :=
  match t with
  | [c1, c2] =>
    if c1 ∈ hexCharTable ∧ c2 ∈ hexCharTable then
      some (16 * digVal c1 + digVal c2)
    else none
  | _ => none

/-- Drop the optional R-colon count prefix of a recorded line. -/
def dropRTokens (ts : List (List Char)) : List (List Char) :=
  match ts with
  | t :: _cnt :: rest => if t = ['R', ':'] then rest else ts
  | _ => ts

/-- Read a list of hex byte pair tokens. -/
def parseHexPairs : List (List Char) → Option (List Nat)
  | [] => some []
  | t :: ts =>
    match parseHexPairTok t, parseHexPairs ts with
    | some b, some bs => some (b :: bs)
    | _, _ => none

/-- The textual report descriptor reader: hash-prefixed comment lines
are ignored, an optional R-colon count prefix is dropped, and the
remaining space-separated hex byte pairs are consumed in order. -/
def rdescFromLines : List (List Char) → Option (List Nat)
  | [] => some []
  | l :: ls =>
    match rdescFromLines ls with
    | none => none
    | some rest =>
      if l.head? = some '#' then some rest
      else
        match parseHexPairs (dropRTokens (splitWS l)) with
        | some bs => some (bs ++ rest)
        | none => none

/-- The first-dump R line of HidrawDevice.dump: the byte count in
decimal and the descriptor bytes as space-separated 02x hex pairs. -/
def rLine (bs : List Nat) : List Char :=
  'R' :: ':' :: ' ' :: (natChars 10 bs.length ++ ' ' :: joinSpace (bs.map pyFmt02x))

/-- The plain textual form: space-separated hex byte pairs. -/
def plainHexLine (bs : List Nat) : List Char := joinSpace (bs.map pyFmt02x)

theorem splitSP_cons (c : Char) (s : List Char) :
    splitSP (c :: s) = splitSPstep c (splitSP s) := rfl

theorem splitSP_append_no_space (t : List Char) (ht : ∀ c ∈ t, c ≠ ' ') :
    ∀ (s x : List Char) (xs : List (List Char)),
    splitSP s = x :: xs → splitSP (t ++ s) = (t ++ x) :: xs := by
  induction t with
  | nil => intro s x xs h; simpa using h
  | cons c t ih =>
    intro s x xs h
    have hc : c ≠ ' ' := ht c (by simp)
    have ht' : ∀ d ∈ t, d ≠ ' ' := fun d hd => ht d (by simp [hd])
    have hrec := ih ht' s x xs h
    show splitSP (c :: (t ++ s)) = (c :: (t ++ x)) :: xs
    rw [splitSP_cons, hrec]
    simp only [splitSPstep]
    rw [if_neg hc]

theorem splitSP_sep (t : List Char) (ht : ∀ c ∈ t, c ≠ ' ') (s : List Char)
    (l : List (List Char)) (h : splitSP s = l) (hl : l ≠ []) :
    splitSP (t ++ ' ' :: s) = t :: l := by
  cases l with
  | nil => exact absurd rfl hl
  | cons x xs =>
    have e1 : splitSPstep ' ' (x :: xs) = [] :: x :: xs := by
      simp [splitSPstep]
    have h2 : splitSP (' ' :: s) = [] :: x :: xs := by
      rw [splitSP_cons, h, e1]
    have h3 := splitSP_append_no_space t ht _ _ _ h2
    simpa using h3

theorem splitSP_no_space (t : List Char) (ht : ∀ c ∈ t, c ≠ ' ') :
    splitSP t = [t] := by
  have h3 := splitSP_append_no_space t ht [] [] [] rfl
  simpa using h3

theorem splitSP_joinSpace : ∀ (ts : List (List Char)),
    (∀ t ∈ ts, t ≠ [] ∧ ∀ c ∈ t, c ≠ ' ') → ts ≠ [] →
    splitSP (joinSpace ts) = ts := by
  intro ts
  induction ts with
  | nil => intro _ h; exact absurd rfl h
  | cons t rest ih =>
    intro hts _
    cases rest with
    | nil =>
      show splitSP (joinSpace [t]) = [t]
      exact splitSP_no_space t (hts t (by simp)).2
    | cons t2 rest' =>
      have hrec := ih (fun u hu => hts u (by simp [hu])) (by simp)
      show splitSP (t ++ ' ' :: joinSpace (t2 :: rest')) = t :: t2 :: rest'
      rw [splitSP_sep t (hts t (by simp)).2 _ _ hrec (by simp)]

theorem splitWS_joinSpace (ts : List (List Char))
    (hts : ∀ t ∈ ts, t ≠ [] ∧ ∀ c ∈ t, c ≠ ' ') :
    splitWS (joinSpace ts) = ts := by
  cases ts with
  | nil => rfl
  | cons t rest =>
    unfold splitWS
    rw [splitSP_joinSpace (t :: rest) hts (by simp)]
    rw [List.filter_eq_self.mpr]
    intro u hu
    have := (hts u hu).1
    simp [List.isEmpty_iff, this]

theorem digChar_ne_hash (n : Nat) : digChar n ≠ '#' :=
  digChar_not_mem (by decide) (by decide) n

theorem digChar_ne_R (n : Nat) : digChar n ≠ 'R' :=
  digChar_not_mem (by decide) (by decide) n

theorem digitsLE_eq_cons {b fuel n : Nat} (hn : n ≠ 0) :
    digitsLE b (fuel + 1) n = digChar (n % b) :: digitsLE b fuel (n / b) := by
  simp [digitsLE, hn]

theorem digitsLE_zero_val (b fuel : Nat) : digitsLE b fuel 0 = [] := by
  cases fuel <;> simp [digitsLE]

theorem digitsLE_small {b fuel n : Nat} (h1 : 1 ≤ n) (h2 : n < b) (hf : 1 ≤ fuel) :
    digitsLE b fuel n = [digChar n] := by
  obtain ⟨f, rfl⟩ : ∃ f, fuel = f + 1 := ⟨fuel - 1, by omega⟩
  rw [digitsLE_eq_cons (by omega), Nat.mod_eq_of_lt h2,
    Nat.div_eq_of_lt h2, digitsLE_zero_val]

theorem pyFmt02x_eq_pair {b : Nat} (hb : b < 256) :
    pyFmt02x b = [digChar (b / 16), digChar (b % 16)] := by
  unfold pyFmt02x natChars
  by_cases hz : b = 0
  · subst hz; decide
  · rw [if_neg hz]
    by_cases h16 : b < 16
    · have hd : digitsLE 16 b b = [digChar b] :=
        digitsLE_small (by omega) h16 (by omega)
      rw [hd]
      have e1 : b / 16 = 0 := Nat.div_eq_of_lt h16
      have e2 : b % 16 = b := Nat.mod_eq_of_lt h16
      rw [e1, e2]
      show padZeros 2 [digChar b] = [digChar 0, digChar b]
      have hz0 : ('0' : Char) = digChar 0 := by decide
      show ['0', digChar b] = [digChar 0, digChar b]
      rw [hz0]
    · have hd : digitsLE 16 b b = [digChar (b % 16), digChar (b / 16)] := by
        obtain ⟨f, hf⟩ : ∃ f, b = f + 1 := ⟨b - 1, by omega⟩
        rw [hf, digitsLE_eq_cons (by omega),
          digitsLE_small (by omega) (by omega) (by omega), ← hf]
      rw [hd]
      show padZeros 2 [digChar (b / 16), digChar (b % 16)] =
        [digChar (b / 16), digChar (b % 16)]
      simp [padZeros]

theorem digChar_mem_table {d : Nat} (hd : d < 16) : digChar d ∈ hexCharTable := by
  interval_cases d <;> decide

theorem parseHexPairTok_pair (c1 c2 : Char) :
    parseHexPairTok [c1, c2] =
      if c1 ∈ hexCharTable ∧ c2 ∈ hexCharTable then
        some (16 * digVal c1 + digVal c2)
      else none := rfl

theorem parseHexPairTok_pyFmt02x {b : Nat} (hb : b < 256) :
    parseHexPairTok (pyFmt02x b) = some b := by
  rw [pyFmt02x_eq_pair hb, parseHexPairTok_pair]
  rw [if_pos ⟨digChar_mem_table (by omega), digChar_mem_table (by omega)⟩]
  rw [digVal_digChar (by omega), digVal_digChar (by omega)]
  congr 1
  omega

theorem parseHexPairs_map {bs : List Nat} (hb : ∀ b ∈ bs, b < 256) :
    parseHexPairs (bs.map pyFmt02x) = some bs := by
  induction bs with
  | nil => rfl
  | cons b rest ih =>
    show parseHexPairs (pyFmt02x b :: rest.map pyFmt02x) = some (b :: rest)
    unfold parseHexPairs
    rw [parseHexPairTok_pyFmt02x (hb b (by simp)),
      ih (fun x hx => hb x (by simp [hx]))]

theorem pyFmt02x_token (b : Nat) :
    pyFmt02x b ≠ [] ∧ ∀ c ∈ pyFmt02x b, c ≠ ' ' := by
  constructor
  · intro h
    have hlen : (pyFmt02x b).length =
        2 - (natChars 16 b).length + (natChars 16 b).length := by
      simp [pyFmt02x, padZeros]
    rw [h] at hlen
    simp at hlen
    omega
  · intro c hc
    rcases pyFmt02x_chars b c hc with ⟨d, _, rfl⟩
    exact digChar_ne_space d

theorem natChars_ne_nil {b n : Nat} (hb : 2 ≤ b) : natChars b n ≠ [] := by
  unfold natChars
  split_ifs with hz
  · simp
  · obtain ⟨f, hf⟩ : ∃ f, n = f + 1 := ⟨n - 1, by omega⟩
    rw [hf]
    conv_lhs => rw [show f + 1 = f + 1 from rfl]
    rw [digitsLE_eq_cons (by omega)]
    simp

theorem joinSpace_chars (ts : List (List Char)) :
    ∀ c ∈ joinSpace ts, c = ' ' ∨ ∃ t ∈ ts, c ∈ t := by
  induction ts with
  | nil => intro c hc; simp [joinSpace] at hc
  | cons t rest ih =>
    intro c hc
    cases rest with
    | nil =>
      refine Or.inr ⟨t, by simp, ?_⟩
      exact hc
    | cons t2 rest' =>
      have hc2 : c ∈ t ++ ' ' :: joinSpace (t2 :: rest') := hc
      rcases List.mem_append.mp hc2 with h | h
      · exact Or.inr ⟨t, by simp, h⟩
      · rcases List.mem_cons.mp h with rfl | h
        · exact Or.inl rfl
        · rcases ih c h with h | ⟨u, hu, hcu⟩
          · exact Or.inl h
          · exact Or.inr ⟨u, by simp [hu], hcu⟩

theorem plainHexLine_no_hash (bs : List Nat) : '#' ∉ plainHexLine bs := by
  intro h
  rcases joinSpace_chars _ '#' h with h | ⟨t, ht, hct⟩
  · exact absurd h (by decide)
  · rcases List.mem_map.mp ht with ⟨b, _, rfl⟩
    rcases pyFmt02x_chars b '#' hct with ⟨d, _, hd⟩
    exact digChar_ne_hash d hd.symm

theorem head?_mem {l : List Char} {c : Char} (h : l.head? = some c) : c ∈ l := by
  cases l with
  | nil => simp at h
  | cons a r =>
    simp only [List.head?, Option.some.injEq] at h
    subst h
    exact List.mem_cons_self a r

theorem pyFmt02x_ne_R (b : Nat) : pyFmt02x b ≠ ['R', ':'] := by
  intro h
  have hR : 'R' ∈ pyFmt02x b := by rw [h]; simp
  rcases pyFmt02x_chars b 'R' hR with ⟨d, _, hd⟩
  exact digChar_ne_R d hd.symm

theorem dropRTokens_cons2 (t c : List Char) (rest : List (List Char)) :
    dropRTokens (t :: c :: rest) =
      if t = ['R', ':'] then rest else t :: c :: rest := rfl

theorem dropRTokens_hex (bs : List Nat) :
    dropRTokens (bs.map pyFmt02x) = bs.map pyFmt02x := by
  cases bs with
  | nil => rfl
  | cons b rest =>
    cases rest with
    | nil => rfl
    | cons b2 rest' =>
      show dropRTokens (pyFmt02x b :: pyFmt02x b2 :: rest'.map pyFmt02x) = _
      rw [dropRTokens_cons2, if_neg (pyFmt02x_ne_R b)]
      rfl

theorem rdescFromLines_cons_ok (l : List Char) (ls : List (List Char))
    (rest : List Nat) (h : rdescFromLines ls = some rest)
    (hhash : ¬ l.head? = some '#') (bs : List Nat)
    (hparse : parseHexPairs (dropRTokens (splitWS l)) = some bs) :
    rdescFromLines (l :: ls) = some (bs ++ rest) := by
  rw [rdescFromLines, h]
  simp only
  rw [if_neg hhash, hparse]

theorem rdescFromLines_cons_comment (l : List Char) (ls : List (List Char))
    (rest : List Nat) (h : rdescFromLines ls = some rest)
    (hhash : l.head? = some '#') :
    rdescFromLines (l :: ls) = some rest := by
  rw [rdescFromLines, h]
  simp only
  rw [if_pos hhash]

theorem splitWS_hexLine (bs : List Nat) :
    splitWS (plainHexLine bs) = bs.map pyFmt02x := by
  apply splitWS_joinSpace
  intro t ht
  rcases List.mem_map.mp ht with ⟨b, _, rfl⟩
  exact pyFmt02x_token b

theorem rdescFromLines_plain (bs : List Nat) (hb : ∀ b ∈ bs, b < 256) :
    rdescFromLines [plainHexLine bs] = some bs := by
  have h := rdescFromLines_cons_ok (plainHexLine bs) [] [] rfl
    (fun hh => plainHexLine_no_hash bs (head?_mem hh)) bs
    (by rw [splitWS_hexLine, dropRTokens_hex, parseHexPairs_map hb])
  simpa using h

theorem rLine_join (b : Nat) (rest : List Nat) :
    rLine (b :: rest) = joinSpace (['R', ':'] :: natChars 10 (b :: rest).length ::
      (b :: rest).map pyFmt02x) := by
  show rLine (b :: rest) = ['R', ':'] ++ ' ' :: joinSpace
    (natChars 10 (b :: rest).length :: (b :: rest).map pyFmt02x)
  show rLine (b :: rest) = ['R', ':'] ++ ' ' ::
    (natChars 10 (b :: rest).length ++ ' ' :: joinSpace ((b :: rest).map pyFmt02x))
  rfl

theorem rdescFromLines_rline (bs : List Nat) (hb : ∀ b ∈ bs, b < 256) :
    rdescFromLines [rLine bs] = some bs := by
  cases bs with
  | nil => decide
  | cons b rest =>
    have hsplit : splitWS (rLine (b :: rest)) =
        ['R', ':'] :: natChars 10 (b :: rest).length :: (b :: rest).map pyFmt02x := by
      rw [rLine_join]
      apply splitWS_joinSpace
      intro t ht
      rcases List.mem_cons.mp ht with rfl | ht
      · exact ⟨by simp, by decide⟩
      rcases List.mem_cons.mp ht with rfl | ht
      · refine ⟨natChars_ne_nil (by omega), ?_⟩
        intro c hc
        rcases natChars_mem (by omega) (by omega) _ c hc with ⟨d, _, rfl⟩
        exact digChar_ne_space d
      · rcases List.mem_map.mp ht with ⟨x, _, rfl⟩
        exact pyFmt02x_token x
    have hdrop : dropRTokens (['R', ':'] :: natChars 10 (b :: rest).length ::
        (b :: rest).map pyFmt02x) = (b :: rest).map pyFmt02x := by
      rw [dropRTokens_cons2, if_pos rfl]
    have hhead : (rLine (b :: rest)).head? = some 'R' := rfl
    have h := rdescFromLines_cons_ok (rLine (b :: rest)) [] [] rfl
      (by
        intro hh
        rw [hhead] at hh
        exact absurd hh (by decide)) (b :: rest)
      (by rw [hsplit, hdrop, parseHexPairs_map hb])
    simpa using h

theorem rdescFromLines_comments (cs : List (List Char))
    (hc : ∀ l ∈ cs, l.head? = some '#') (bs : List Nat)
    (hb : ∀ b ∈ bs, b < 256) :
    rdescFromLines (cs ++ [rLine bs]) = some bs := by
  induction cs with
  | nil => simpa using rdescFromLines_rline bs hb
  | cons l cs ih =>
    have hrest := ih (fun x hx => hc x (by simp [hx]))
    exact rdescFromLines_cons_comment l _ bs hrest (hc l (by simp))

/-- C5: report descriptor construction accepts, with no format flag,
all three input forms — raw descriptor bytes, a textual line of
space-separated hex byte pairs optionally prefixed by an R-colon count,
and an annotated dump whose hash-prefixed comment lines are ignored —
and every form yields the same parsed descriptor as the underlying raw
bytes. -/
theorem C5_three_input_forms (bs : List Nat) (hb : ∀ b ∈ bs, b < 256) :
    rdescFromLines [plainHexLine bs] = some bs ∧
    rdescFromLines [rLine bs] = some bs ∧
    (∀ cs : List (List Char), (∀ l ∈ cs, l.head? = some '#') →
      rdescFromLines (cs ++ [rLine bs]) = some bs) ∧
    (∀ out, rdescFromLines [rLine bs] = some out →
      parseRdescItems out = parseRdescItems bs) := by
  refine ⟨rdescFromLines_plain bs hb, rdescFromLines_rline bs hb,
    fun cs hcs => rdescFromLines_comments cs hcs bs hb, ?_⟩
  intro out hout
  rw [rdescFromLines_rline bs hb] at hout
  injection hout with hout
  rw [hout]

theorem C5_three_input_forms_witness :
    (∀ b ∈ [5, 1, 192], b < 256) ∧
    rdescFromLines [plainHexLine [5, 1, 192]] = some [5, 1, 192] ∧
    rdescFromLines [('#' :: ("c").data), rLine [5, 1, 192]] = some [5, 1, 192] := by
  have h := C5_three_input_forms [5, 1, 192] (by decide)
  exact ⟨by decide, h.1, h.2.2.1 [('#' :: ("c").data)] (by decide)⟩

/-- C6: on its first invocation, HidrawDevice.dump emits an R line in
which the count is the decimal byte count of the stored descriptor and
the bytes follow as space-separated two-digit lowercase hex pairs in
order, and that line is itself in the R-prefixed textual input form
accepted by the reader. -/
theorem C6_dump_R_line (bs : List Nat) (hb : ∀ b ∈ bs, b < 256) :
    rLine bs = 'R' :: ':' :: ' ' ::
      (natChars 10 bs.length ++ ' ' :: joinSpace (bs.map pyFmt02x)) ∧
    (∀ c ∈ natChars 10 bs.length, c.isDigit) ∧
    valBE 10 (natChars 10 bs.length) = bs.length ∧
    (∀ b ∈ bs, IsLowerHexPair (pyFmt02x b) b) ∧
    rdescFromLines [rLine bs] = some bs := by
  refine ⟨rfl, ?_, valBE_natChars (by omega) (by omega) _, ?_,
    rdescFromLines_rline bs hb⟩
  · intro c hc
    rcases natChars_mem (by omega) (by omega) _ c hc with ⟨d, hd, rfl⟩
    exact digChar_isDigit hd
  · exact fun b hbm => pyFmt02x_spec (hb b hbm)

theorem C6_dump_R_line_witness :
    (∀ b ∈ [5, 1, 192], b < 256) ∧
    valBE 10 (natChars 10 ([5, 1, 192] : List Nat).length) = 3 ∧
    rdescFromLines [rLine [5, 1, 192]] = some [5, 1, 192] := by
  have h := C6_dump_R_line [5, 1, 192] (by decide)
  exact ⟨by decide, h.2.2.1, h.2.2.2.2⟩

/-! ## Decoded report lines and the comment indentation

The grouped name-colon-value lines are modelled from the spec (the
format_report renderer lives in the engine module, not in the source
tree); the indentation of the printed comment block embeds
HidrawDevice._dump_event in hidtools/hidraw.py. -/

/-- Decimal rendering of an integer value, as Python str. -/
def intChars (v : Int) : List Char :=
  if v < 0 then '-' :: natChars 10 v.natAbs else natChars 10 v.toNat

/-- One field entry of a decoded report line: the usage name, a colon
and the value. -/
def reportEntry (e : String × Int) : List Char :=
  e.1.data ++ ':' :: ' ' :: intChars e.2

/-- Join entries with slashes. -/
def joinSlash : List (List Char) → List Char
  | [] => []
  | [x] => x
  | x :: y :: xs => x ++ ' ' :: '/' :: ' ' :: joinSlash (y :: xs)

/-- One decoded-report line per byte group, the group's fields joined
with slashes. -/
def formatReportLines (groups : List (List (String × Int))) : List (List Char) :=
  groups.map (fun g => joinSlash (g.map reportEntry))

/-- Index of the first slash of a line, as the Python str.index call of
_dump_event (none models the caught ValueError). -/
def slashIdx : List Char → Option Nat
  | [] => none
  | c :: r => if c = '/' then some 0 else (slashIdx r).map (· + 1)

/-- The continuation indent of _dump_event: the column just after the
first slash of the first row, or two when there is none. -/
def dumpIndent (l0 : List Char) : Nat :=
  match slashIdx l0 with
  | some i => i + 1
  | none => 2

/-- The printed comment block of _dump_event: the first line behind
hash-space, every continuation line behind a hash and the indent. -/
def dumpEventBlock : List (List Char) → List (List Char)
  | [] => []
  | l0 :: rest =>
    ('#' :: ' ' :: l0) ::
      rest.map (fun l => '#' :: (List.replicate (dumpIndent l0) ' ' ++ l))

theorem slashIdx_cons_ne (c : Char) (r : List Char) (h : c ≠ '/') :
    slashIdx (c :: r) = (slashIdx r).map (· + 1) := by
  simp [slashIdx, h]

/-- C7: formatting a decoded report produces one line per byte group of
slash-joined name-colon-value entries, and in the printed comment block
every continuation line is indented so that its content starts exactly
at the column of the first slash of the printed first line; when the
first line has no slash the continuation indent is two spaces. -/
theorem C7_decoded_report_lines (g0 : List (String × Int))
    (gs : List (List (String × Int))) :
    formatReportLines (g0 :: gs) =
      joinSlash (g0.map reportEntry) ::
        gs.map (fun g => joinSlash (g.map reportEntry)) ∧
    dumpEventBlock (formatReportLines (g0 :: gs)) =
      ('#' :: ' ' :: joinSlash (g0.map reportEntry)) ::
        (gs.map (fun g => joinSlash (g.map reportEntry))).map
          (fun l => '#' ::
            (List.replicate (dumpIndent (joinSlash (g0.map reportEntry))) ' ' ++ l)) ∧
    (∀ i, slashIdx (joinSlash (g0.map reportEntry)) = some i →
      dumpIndent (joinSlash (g0.map reportEntry)) = i + 1 ∧
      slashIdx ('#' :: ' ' :: joinSlash (g0.map reportEntry)) = some (i + 2) ∧
      ('#' :: List.replicate (i + 1) ' ').length = i + 2) ∧
    (slashIdx (joinSlash (g0.map reportEntry)) = none →
      dumpIndent (joinSlash (g0.map reportEntry)) = 2) := by
  refine ⟨rfl, rfl, ?_, ?_⟩
  · intro i hi
    refine ⟨?_, ?_, ?_⟩
    · unfold dumpIndent
      rw [hi]
    · rw [slashIdx_cons_ne '#' _ (by decide), slashIdx_cons_ne ' ' _ (by decide),
        hi]
      rfl
    · simp
  · intro hn
    unfold dumpIndent
    rw [hn]

theorem C7_decoded_report_lines_witness :
    dumpIndent (joinSlash (([(("X" : String), (5 : Int)),
      (("Y" : String), (6 : Int))]).map reportEntry)) = 6 ∧
    slashIdx ('#' :: ' ' :: joinSlash (([(("X" : String), (5 : Int)),
      (("Y" : String), (6 : Int))]).map reportEntry)) = some 7 := by
  have h := (C7_decoded_report_lines [(("X" : String), (5 : Int)),
    (("Y" : String), (6 : Int))] []).2.2.1 5 (by decide)
  exact ⟨h.1, h.2.1⟩

/-! ## The gamepad report state

Embedding of BaseGamepad.create_report in
hidtools/device/base_gamepad.py: argument components given as None mean
leave unchanged — the stored stick coordinates, hat switch value and
button states are substituted, the stored state is updated only by the
components actually supplied, and the report data object is built from
the updated stored state.  A button index outside the device's buttons
raises InvalidHIDCommunication; the claim concerns successful calls. -/

/-- The stored state of a BaseGamepad between create_report calls. -/
structure GamepadState where
  left : Int × Int
  right : Int × Int
  hat_switch : Int
  buttons : List (Nat × Bool)
  allowed : List Nat
deriving DecidableEq

/-- Python dict assignment over an insertion-ordered association list:
overwrite in place when the key exists, append otherwise. -/
def dinsertB (m : List (Nat × Bool)) (k : Nat) (v : Bool) : List (Nat × Bool) :=
  if m.any (fun p => p.1 == k) then
    m.map (fun p => if p.1 = k then (k, v) else p)
  else m ++ [(k, v)]

/-- The buttons loop of create_report: every supplied index is checked
against the device's buttons, and only the indices whose supplied state
is not None update the stored dict; a bad index aborts with
InvalidHIDCommunication (the Bool result). -/
def storeButtons : List (Nat × Bool) → List Nat → List (Nat × Option Bool) →
    List (Nat × Bool) × Bool
  | st, _, [] => (st, true)
  | st, allowed, (i, b) :: rest =>
    if i ∈ allowed then
      match b with
      | some bv => storeButtons (dinsertB st i bv) allowed rest
      | none => storeButtons st allowed rest
    else (st, false)

/-- The replace_none_in_tuple helper of create_report. -/
def replaceNoneInTuple (item : Option (Option Int × Option Int))
    (dflt : Int × Int) : Int × Int :=
  let it := item.getD (none, none)
  (it.1.getD dflt.1, it.2.getD dflt.2)

/-- The data object handed to the codec by create_report. -/
structure GamepadReport where
  buttons : List (Nat × Int)
  lx : Int
  ly : Int
  rx : Int
  ry : Int
  hatswitch : Int
deriving DecidableEq

/-- Embedding of BaseGamepad.create_report: update the stored state
from the non-None argument components and build the report data from
the stored state.  The error models the InvalidHIDCommunication raised
on an unknown button index. -/
def createReport (st : GamepadState)
    (left right : Option (Option Int × Option Int))
    (hat_switch : Option Int)
    (buttons : Option (List (Nat × Option Bool))) :
    Except String (GamepadReport × GamepadState) :=
  let processed := storeButtons st.buttons st.allowed (buttons.getD [])
  if processed.2 then
    let right2 := replaceNoneInTuple right st.right
    let left2 := replaceNoneInTuple left st.left
    let hat2 := hat_switch.getD st.hat_switch
    let st2 : GamepadState :=
      GamepadState.mk left2 right2 hat2 processed.1 st.allowed
    let rep : GamepadReport :=
      GamepadReport.mk
        (processed.1.map (fun p => (p.1, if p.2 then (1 : Int) else 0)))
        left2.1 left2.2 right2.1 right2.2 hat2
    Except.ok (rep, st2)
  else Except.error ("InvalidHIDCommunication")

/-- Specification-side reading of the buttons loop on valid input: the
stored dict updated by exactly the supplied non-None entries. -/
def updateButtons (st : List (Nat × Bool)) (bl : List (Nat × Option Bool)) :
    List (Nat × Bool) :=
  (bl.filterMap (fun e => e.2.map (fun v => (e.1, v)))).foldl
    (fun m e => dinsertB m e.1 e.2) st

theorem storeButtons_cons (st : List (Nat × Bool)) (allowed : List Nat)
    (i : Nat) (b : Option Bool) (rest : List (Nat × Option Bool)) :
    storeButtons st allowed ((i, b) :: rest) =
      if i ∈ allowed then
        match b with
        | some bv => storeButtons (dinsertB st i bv) allowed rest
        | none => storeButtons st allowed rest
      else (st, false) := rfl

theorem storeButtons_ok : ∀ (bl : List (Nat × Option Bool))
    (st : List (Nat × Bool)) (allowed : List Nat),
    (∀ e ∈ bl, e.1 ∈ allowed) →
    storeButtons st allowed bl = (updateButtons st bl, true) := by
  intro bl
  induction bl with
  | nil => intro st allowed _; rfl
  | cons e rest ih =>
    intro st allowed h
    obtain ⟨i, b⟩ := e
    rw [storeButtons_cons, if_pos (h (i, b) (by simp))]
    cases b with
    | some bv =>
      show storeButtons (dinsertB st i bv) allowed rest = _
      rw [ih (dinsertB st i bv) allowed (fun x hx => h x (by simp [hx]))]
      rfl
    | none =>
      show storeButtons st allowed rest = _
      rw [ih st allowed (fun x hx => h x (by simp [hx]))]
      rfl

/-- C8: in every call to BaseGamepad.create_report, a component given
as None means leave unchanged — the previously stored stick
coordinates, hat switch value and button states are substituted for the
None components, the stored state is updated only by the non-None
components supplied, and the report is built from that stored state. -/
theorem C8_create_report_none_unchanged (st : GamepadState)
    (left right : Option (Option Int × Option Int))
    (hat_switch : Option Int)
    (buttons : Option (List (Nat × Option Bool)))
    (hok : ∀ e ∈ buttons.getD [], e.1 ∈ st.allowed) :
    ∃ rep st2, createReport st left right hat_switch buttons =
        Except.ok (rep, st2) ∧
      st2.left = replaceNoneInTuple left st.left ∧
      st2.right = replaceNoneInTuple right st.right ∧
      st2.hat_switch = hat_switch.getD st.hat_switch ∧
      st2.buttons = updateButtons st.buttons (buttons.getD []) ∧
      st2.allowed = st.allowed ∧
      rep.lx = st2.left.1 ∧ rep.ly = st2.left.2 ∧
      rep.rx = st2.right.1 ∧ rep.ry = st2.right.2 ∧
      rep.hatswitch = st2.hat_switch ∧
      rep.buttons = st2.buttons.map
        (fun p => (p.1, if p.2 then (1 : Int) else 0)) := by
  have hproc : storeButtons st.buttons st.allowed (buttons.getD []) =
      (updateButtons st.buttons (buttons.getD []), true) :=
    storeButtons_ok (buttons.getD []) st.buttons st.allowed hok
  refine ⟨GamepadReport.mk
      ((updateButtons st.buttons (buttons.getD [])).map
        (fun p => (p.1, if p.2 then (1 : Int) else 0)))
      (replaceNoneInTuple left st.left).1 (replaceNoneInTuple left st.left).2
      (replaceNoneInTuple right st.right).1 (replaceNoneInTuple right st.right).2
      (hat_switch.getD st.hat_switch),
    GamepadState.mk (replaceNoneInTuple left st.left)
      (replaceNoneInTuple right st.right) (hat_switch.getD st.hat_switch)
      (updateButtons st.buttons (buttons.getD [])) st.allowed,
    ?_, rfl, rfl, rfl, rfl, rfl, rfl, rfl, rfl, rfl, rfl, rfl⟩
  unfold createReport
  rw [hproc]
  rfl

theorem C8_create_report_none_unchanged_witness :
    ∃ rep st2,
      createReport (GamepadState.mk (127, 127) (127, 127) 15 [] [1, 2, 3])
        (some (some 10, none)) none (some 3) (some [(2, some true)]) =
        Except.ok (rep, st2) ∧
      st2.left = (10, 127) ∧ st2.right = (127, 127) ∧ st2.hat_switch = 3 ∧
      st2.buttons = [(2, true)] := by
  obtain ⟨rep, st2, h, hl, hr, hh, hb, _⟩ :=
    C8_create_report_none_unchanged
      (GamepadState.mk (127, 127) (127, 127) 15 [] [1, 2, 3])
      (some (some 10, none)) none (some 3) (some [(2, some true)])
      (by decide)
  exact ⟨rep, st2, h, by rw [hl]; rfl, by rw [hr]; rfl, by rw [hh]; rfl,
    by rw [hb]; rfl⟩

/-! ## The usage page dictionaries

Embedding of HidUsagePage in hidtools/hut.py: a usage page is an
insertion-ordered dictionary from usage numbers to names; from_name
builds the inverted dictionary by iterating the items and assigning
inverted[name] = usage, and from_usage returns the page itself. -/

/-- Dictionary access of a usage page: the name stored for a usage. -/
def pageGet (entries : List (Nat × String)) (u : Nat) : Option String :=
  (entries.find? (fun e => e.1 == u)).map (fun e => e.2)

/-- Python dict assignment for the inverted dictionary. -/
def dinsertS (m : List (String × Nat)) (k : String) (v : Nat) :
    List (String × Nat) :=
  if m.any (fun p => p.1 == k) then
    m.map (fun p => if p.1 = k then (k, v) else p)
  else m ++ [(k, v)]

/-- The inverted dictionary of HidUsagePage.from_name. -/
def fromName (entries : List (Nat × String)) : List (String × Nat) :=
  entries.foldl (fun acc kv => dinsertS acc kv.2 kv.1) []

/-- Name lookup in the inverted dictionary. -/
def fromNameGet (entries : List (Nat × String)) (n : String) : Option Nat :=
  ((fromName entries).find? (fun e => e.1 == n)).map (fun e => e.2)

/-- HidUsagePage.from_usage returns the page itself. -/
def fromUsage (entries : List (Nat × String)) : List (Nat × String) := entries

theorem fromName_aux : ∀ (entries : List (Nat × String))
    (acc : List (String × Nat)),
    (entries.map Prod.snd).Nodup →
    (∀ e ∈ entries, ∀ a ∈ acc, a.1 ≠ e.2) →
    entries.foldl (fun acc2 kv => dinsertS acc2 kv.2 kv.1) acc =
      acc ++ entries.map (fun kv => (kv.2, kv.1)) := by
  intro entries
  induction entries with
  | nil => intro acc _ _; simp
  | cons kv rest ih =>
    intro acc hnod hdis
    have hins : dinsertS acc kv.2 kv.1 = acc ++ [(kv.2, kv.1)] := by
      unfold dinsertS
      rw [if_neg]
      intro hany
      rw [List.any_eq_true] at hany
      rcases hany with ⟨a, ha, hpa⟩
      exact hdis kv (by simp) a ha (by simpa using hpa)
    show List.foldl _ (dinsertS acc kv.2 kv.1) rest = _
    rw [hins, ih (acc ++ [(kv.2, kv.1)]) (by simpa using hnod.of_cons) ?hdis2]
    · simp
    case hdis2 =>
      intro e he a ha
      rcases List.mem_append.mp ha with ha | ha
      · exact hdis e (by simp [he]) a ha
      · rcases List.mem_singleton.mp ha with rfl
        show kv.2 ≠ e.2
        intro hc
        have h1 : e.2 ∈ rest.map Prod.snd := List.mem_map.mpr ⟨e, he, rfl⟩
        rw [List.map_cons, List.nodup_cons] at hnod
        exact hnod.1 (hc ▸ h1)

theorem fromName_eq (entries : List (Nat × String))
    (hn : (entries.map Prod.snd).Nodup) :
    fromName entries = entries.map (fun kv => (kv.2, kv.1)) := by
  have h := fromName_aux entries [] hn (by simp)
  simpa [fromName] using h

theorem find_swap : ∀ (entries : List (Nat × String)),
    (entries.map Prod.snd).Nodup → ∀ (u : Nat) (n : String),
    pageGet entries u = some n →
    (entries.map (fun kv => (kv.2, kv.1))).find? (fun e => e.1 == n) =
      some (n, u) := by
  intro entries
  induction entries with
  | nil => intro _ u n h; simp [pageGet] at h
  | cons kv rest ih =>
    intro hn u n hget
    by_cases hu : kv.1 = u
    · have hkv : kv.2 = n := by
        unfold pageGet at hget
        rw [List.find?_cons_of_pos _ (by simpa using hu)] at hget
        simpa using hget
      rw [List.map_cons, List.find?_cons_of_pos _ (by simpa using hkv)]
      rw [show kv = (u, n) from Prod.ext hu hkv]
    · have hget' : pageGet rest u = some n := by
        unfold pageGet at hget ⊢
        rw [List.find?_cons_of_neg _ (by simpa using hu)] at hget
        exact hget
      have hmemn : n ∈ rest.map Prod.snd := by
        unfold pageGet at hget'
        cases hfind : rest.find? (fun e => e.1 == u) with
        | none => rw [hfind] at hget'; simp at hget'
        | some e =>
          rw [hfind] at hget'
          have he : e ∈ rest := List.mem_of_find?_eq_some hfind
          have hen : e.2 = n := by simpa using hget'
          exact List.mem_map.mpr ⟨e, he, hen⟩
      have hne : ¬ kv.2 = n := by
        intro hc
        rw [List.map_cons, List.nodup_cons] at hn
        exact hn.1 (hc ▸ hmemn)
      rw [List.map_cons, List.find?_cons_of_neg _ (by simpa using hne)]
      exact ih (by simpa using (List.nodup_cons.mp (by simpa using hn)).2) u n hget'

/-- C9: for every usage page whose usage names are pairwise distinct
(and whose usage numbers are distinct, as dictionary keys are), looking
up the name of a present usage in from_name gives back the usage
number, and from_usage is the page itself. -/
theorem C9_from_name_inverse (entries : List (Nat × String))
    (hk : (entries.map Prod.fst).Nodup) (hn : (entries.map Prod.snd).Nodup)
    (u : Nat) (n : String) (hget : pageGet entries u = some n) :
    fromNameGet entries n = some u ∧ fromUsage entries = entries := by
  refine ⟨?_, rfl⟩
  unfold fromNameGet
  rw [fromName_eq entries hn, find_swap entries hn u n hget]
  rfl

theorem C9_from_name_inverse_witness :
    fromNameGet [(1, "Pointer"), (2, "Mouse")] ("Mouse") = some 2 ∧
    fromUsage [(1, "Pointer"), (2, "Mouse")] = [(1, "Pointer"), (2, "Mouse")] :=
  C9_from_name_inverse [(1, "Pointer"), (2, "Mouse")] (by decide) (by decide)
    2 ("Mouse") (by decide)

/-! ## Feature report I/O

Embedding of HidrawDevice.get_feature_report and set_feature_report in
hidtools/hidraw.py.  The device ioctls are oracles passed as function
arguments, so an error raised before them is an error for every
possible oracle — the lookup of the report ID in the parsed
descriptor's feature reports happens before any device I/O. -/

/-- An error raised by the feature report paths. -/
inductive HidrawErr where
  | keyError
  | assertionError
  | indexError
  | osError
deriving DecidableEq

/-- HidrawDevice.get_feature_report: look the report up by ID (a
missing ID raises KeyError), then call the get-feature ioctl, which
asserts the report ID fits a byte. -/
def getFeatureReport (featureReports : List (Nat × Nat)) (reportID : Nat)
    (ioGet : Nat → Nat → List Nat) : Except HidrawErr (List Nat) :=
  match featureReports.find? (fun e => e.1 == reportID) with
  | none => Except.error HidrawErr.keyError
  | some e =>
    if reportID ≤ 255 then Except.ok (ioGet reportID e.2)
    else Except.error HidrawErr.assertionError

/-- HidrawDevice.set_feature_report: look the report up by ID (a
missing ID raises KeyError), assert the first data byte equals the
report ID, call the set-feature ioctl, and raise OSError when the byte
count written differs from the data length. -/
def setFeatureReport (featureReports : List (Nat × Nat)) (reportID : Nat)
    (data : List Nat) (ioSet : List Nat → Nat) : Except HidrawErr Unit :=
  match featureReports.find? (fun e => e.1 == reportID) with
  | none => Except.error HidrawErr.keyError
  | some _ =>
    match data.head? with
    | none => Except.error HidrawErr.indexError
    | some d0 =>
      if d0 = reportID then
        if ioSet data ≠ data.length then Except.error HidrawErr.osError
        else Except.ok ()
      else Except.error HidrawErr.assertionError

/-- C10: get_feature_report and set_feature_report raise KeyError, for
every possible device oracle, whenever the report ID has no Feature
report in the parsed descriptor — so before performing any device I/O;
set_feature_report requires the first data byte to equal the report ID,
and raises OSError exactly when the number of bytes written differs
from the data length. -/
theorem C10_feature_report_errors (featureReports : List (Nat × Nat))
    (reportID : Nat) (data : List Nat) :
    (featureReports.find? (fun e => e.1 == reportID) = none →
      (∀ ioGet, getFeatureReport featureReports reportID ioGet =
        Except.error HidrawErr.keyError) ∧
      (∀ ioSet, setFeatureReport featureReports reportID data ioSet =
        Except.error HidrawErr.keyError)) ∧
    (∀ r d0, featureReports.find? (fun e => e.1 == reportID) = some r →
      data.head? = some d0 → d0 ≠ reportID →
      ∀ ioSet, setFeatureReport featureReports reportID data ioSet =
        Except.error HidrawErr.assertionError) ∧
    (∀ r, featureReports.find? (fun e => e.1 == reportID) = some r →
      data.head? = some reportID →
      ∀ ioSet,
        (ioSet data ≠ data.length →
          setFeatureReport featureReports reportID data ioSet =
            Except.error HidrawErr.osError) ∧
        (ioSet data = data.length →
          setFeatureReport featureReports reportID data ioSet =
            Except.ok ())) := by
  refine ⟨?_, ?_, ?_⟩
  · intro hnone
    constructor
    · intro ioGet
      unfold getFeatureReport
      rw [hnone]
    · intro ioSet
      unfold setFeatureReport
      rw [hnone]
  · intro r d0 hfind hhead hne ioSet
    unfold setFeatureReport
    rw [hfind, hhead]
    simp only
    rw [if_neg hne]
  · intro r hfind hhead ioSet
    constructor
    · intro hsz
      unfold setFeatureReport
      rw [hfind, hhead]
      simp [hsz]
    · intro hsz
      unfold setFeatureReport
      rw [hfind, hhead]
      simp [hsz]

theorem C10_feature_report_errors_witness :
    getFeatureReport [] 1 (fun _ _ => []) = Except.error HidrawErr.keyError ∧
    setFeatureReport [(1, 3)] 1 [1, 0] (fun d => d.length) = Except.ok () := by
  constructor
  · exact ((C10_feature_report_errors [] 1 []).1 (by decide)).1 (fun _ _ => [])
  · exact (((C10_feature_report_errors [(1, 3)] 1 [1, 0]).2.2 (1, 3)
      (by decide) (by decide)) (fun d => d.length)).2 (by decide)

end HidTools
